import Mathlib

/-!
Verification of the fstream-walk directory-traversal engine.

This file gives a shallow embedding, in Lean 4, of the relevant parts of the
fstream-walk sources:

* `src/utils.js`  - the pattern matcher `match` (embedded as `matchJs`) and the
  bug-fixed TypeScript variant from `src/utils.ts` (embedded as `matchTs`);
* `src/options.js` - `DEFAULT_OPTIONS` and `sanitizeOptions`, over a small
  universe of dynamically-typed JavaScript values;
* `src/errors.js` - `shouldSuppressError` and the error-class mapping of
  `wrapError`;
* `src/core.js`  - the recursive walker generator `walk`, embedded as the
  fuel-indexed pure function `walkGo` over an abstract filesystem interface.

JavaScript numbers are modelled by `JSNum` (NaN, the two infinities, and
finite values as rationals); machine floating point beyond that plays no role
in the checked properties.  Asynchrony is modelled by a logical clock: every
cancellation poll and every filesystem call advances the clock by one, and the
AbortSignal is modelled by the time `abortAt` from which polls observe the
abort flag.
-/

namespace FsWalk

/-! ### Pattern matcher (src/utils.js and src/utils.ts) -/

/-- A filter rule as passed to the matcher: a JavaScript value that is either a
string, a RegExp (modelled by its test function), a predicate function, or any
other (invalid) truthy value. `Option Pattern` with `none` models
null/undefined. -/
inductive Pattern where
  | str (s : String)
  | regex (test : String → Bool)
  | pred (f : String → Bool)
  | other

/-- Substring test: `hay.includes(pat)` of JavaScript. -/
def strIncludes (hay pat : String) : Bool :=
  decide (pat.toList <:+: hay.toList)

/-- Embedding of `match` from `src/utils.js` (the pre-fix variant): a falsy
pattern (null, undefined, or the empty string) matches everything, and any
unhandled shape falls through to `return true`. -/
def matchJs (fileName : String) : Option Pattern → Bool
  | none => true
  | some (.str s) => if s = "" then true else strIncludes fileName s
  | some (.regex t) => t fileName
  | some (.pred f) => f fileName
  | some .other => true

/-- Embedding of `match` from `src/utils.ts` (the BUG-005/BUG-006 fixed
variant): only null/undefined mean match-all; the empty string and every
invalid shape raise a TypeError, modelled by `Except.error`. -/
def matchTs (fileName : String) : Option Pattern → Except String Bool
  | none => .ok true
  | some (.regex t) => .ok (t fileName)
  | some (.str s) =>
      if s = "" then
        .error "Pattern cannot be an empty string (use null for \"match all\")"
      else .ok (strIncludes fileName s)
  | some (.pred f) => .ok (f fileName)
  | some .other =>
      .error "Pattern must be a string, RegExp, function, null, or undefined."

/-- JavaScript truthiness of a pattern value, as used by
`options.exclude && ...` in `applyFilters` (src/core.js): null/undefined and
the empty string are falsy; other pattern shapes are truthy objects. -/
def patTruthy : Option Pattern → Bool
  | none => false
  | some (.str s) => !(s = "")
  | some _ => true

/-! ### Option sanitizer (src/options.js) -/

/-- JavaScript numbers, with just enough structure for the sanitizer: NaN,
the infinities, and finite values as rationals. -/
inductive JSNum where
  | nan
  | inf
  | ninf
  | fin (q : ℚ)
deriving DecidableEq, Repr

/-- A value supplied for `maxDepth`: a number, or something of another type. -/
inductive MaxDepthIn where
  | num (n : JSNum)
  | notNum
deriving DecidableEq, Repr

/-- A value supplied for `sort`. -/
inductive SortIn where
  | null
  | asc
  | desc
  | fn
  | other
deriving DecidableEq, Repr

/-- A value supplied for `signal`: null, a real AbortSignal, or a value of the
wrong type. -/
inductive SignalIn where
  | null
  | abortSignal
  | other
deriving DecidableEq, Repr

/-- A value supplied for one of the boolean options. -/
inductive BoolIn where
  | bool (b : Bool)
  | notBool
deriving DecidableEq, Repr

/-- A value supplied for `onProgress`. -/
inductive ProgressIn where
  | null
  | fn
  | other
deriving DecidableEq, Repr

/-- A partial user configuration: each field is either absent (filled from
`DEFAULT_OPTIONS` by the object spread in `sanitizeOptions`) or a supplied
JavaScript value of the modelled universe.  The include/exclude rules are
named `includeRule`/`excludeRule` because `include` is a Lean keyword. -/
structure WalkerOptionsIn where
  maxDepth : Option MaxDepthIn := none
  includeRule : Option (Option Pattern) := none
  excludeRule : Option (Option Pattern) := none
  yieldDirectories : Option BoolIn := none
  followSymlinks : Option BoolIn := none
  suppressErrors : Option BoolIn := none
  signal : Option SignalIn := none
  sort : Option SortIn := none
  onProgress : Option ProgressIn := none
  withStats : Option BoolIn := none

/-- The merged configuration produced by `{ ...DEFAULT_OPTIONS, ...opts }`. -/
structure MergedOptions where
  maxDepth : MaxDepthIn
  includeRule : Option Pattern
  excludeRule : Option Pattern
  yieldDirectories : BoolIn
  followSymlinks : BoolIn
  suppressErrors : BoolIn
  signal : SignalIn
  sort : SortIn
  onProgress : ProgressIn
  withStats : BoolIn

/-- Embedding of `DEFAULT_OPTIONS` combined with the object spread: every
absent field takes its documented default. -/
def mergeDefaults (o : WalkerOptionsIn) : MergedOptions where
  maxDepth := o.maxDepth.getD (.num .inf)
  includeRule := (o.includeRule.getD none)
  excludeRule := (o.excludeRule.getD none)
  yieldDirectories := o.yieldDirectories.getD (.bool false)
  followSymlinks := o.followSymlinks.getD (.bool false)
  suppressErrors := o.suppressErrors.getD (.bool true)
  signal := o.signal.getD .null
  sort := o.sort.getD .null
  onProgress := o.onProgress.getD .null
  withStats := o.withStats.getD (.bool false)

/-- The `maxDepth` validation of `sanitizeOptions`: accepted when it is
`Infinity`, or a number that is neither NaN nor negative.  Note that any
non-negative finite number is accepted, integral or not. -/
def maxDepthOk : MaxDepthIn → Bool
  | .num .inf => true
  | .num .nan => false
  | .num .ninf => false
  | .num (.fin q) => decide (0 ≤ q)
  | .notNum => false

/-- The `sort` validation: null, the two literals, or a function. -/
def sortOk : SortIn → Bool
  | .null => true
  | .asc => true
  | .desc => true
  | .fn => true
  | .other => false

/-- The `signal` validation: null or an actual AbortSignal. -/
def signalOk : SignalIn → Bool
  | .null => true
  | .abortSignal => true
  | .other => false

/-- The boolean-option validation. -/
def boolOk : BoolIn → Bool
  | .bool _ => true
  | .notBool => false

/-- The `onProgress` validation: null or a function. -/
def progressOk : ProgressIn → Bool
  | .null => true
  | .fn => true
  | .other => false

/-- Embedding of `sanitizeOptions` from `src/options.js`: merge with the
defaults, then run the validations in source order, raising the first failing
check as an error.  Include/exclude rules are not validated. -/
def sanitizeOptions (o : WalkerOptionsIn) : Except String MergedOptions :=
  if !maxDepthOk (mergeDefaults o).maxDepth then
    .error "maxDepth must be a non-negative number or Infinity"
  else if !sortOk (mergeDefaults o).sort then
    .error "sort must be an approved value"
  else if !signalOk (mergeDefaults o).signal then
    .error "signal must be an AbortSignal or null"
  else if !boolOk (mergeDefaults o).yieldDirectories then
    .error "yieldDirectories must be a boolean"
  else if !boolOk (mergeDefaults o).followSymlinks then
    .error "followSymlinks must be a boolean"
  else if !boolOk (mergeDefaults o).suppressErrors then
    .error "suppressErrors must be a boolean"
  else if !boolOk (mergeDefaults o).withStats then
    .error "withStats must be a boolean"
  else if !progressOk (mergeDefaults o).onProgress then
    .error "onProgress must be a function or null"
  else
    .ok (mergeDefaults o)

/-! ### Error classifier (src/errors.js) -/

/-- An error value as seen by `shouldSuppressError`: whether it is an instance
of the `PermissionError` class, and its `code` property. -/
structure JsError where
  isPermissionError : Bool
  code : Option String
deriving DecidableEq, Repr

/-- Embedding of `shouldSuppressError` from `src/errors.js`: suppression must
be enabled, and the error must be a `PermissionError` instance or carry the
code EACCES or EPERM. -/
def shouldSuppressError (err : JsError) (suppressErrors : Bool := true) : Bool :=
  if !suppressErrors then false
  else if err.isPermissionError then true
  else if err.code = some "EACCES" || err.code = some "EPERM" then true
  else false

/-- Embedding of the class mapping of `wrapError` from `src/errors.js`: the
name of the error class a raw system error of the given code is wrapped
into. -/
def wrapErrorName (code : Option String) : String :=
  if code = some "EACCES" || code = some "EPERM" then "PermissionError"
  else if code = some "ENOENT" then "PathNotFoundError"
  else if code = some "ELOOP" then "SymlinkLoopError"
  else if code = some "ENOTDIR" then "InvalidPathError"
  else "FStreamWalkError"

/-! ### Traversal engine (src/core.js)

Paths are modelled as lists of segments; `joinPath dir name` appends one
segment.  The filesystem is an abstract interface of three pure operations,
each returning a value or a raw system error, matching how `walk` consumes
`fs.opendir`, `fs.realpath`, and `fs.stat`.  The async generator `walk` is
embedded as `walkGo`, a fuel-indexed pure function: the fuel bounds the
recursion depth only (one unit per nested directory frame); siblings reuse
the frame fuel, so any run whose directory nesting stays below the fuel is
computed exactly.  `none` means the fuel was exhausted. -/

/-- A path as a list of segments from the traversal root. -/
abbrev Path := List String

/-- Embedding of `joinPath` from `src/utils.js` restricted to the one-segment
form `joinPath(dirPath, dirent.name)` used by the walker. -/
def joinPath (dir : Path) (name : String) : Path := dir ++ [name]

/-- A directory entry as returned by the directory stream: its name and the
`isDirectory()` / `isSymbolicLink()` flags of the Dirent. -/
structure Dirent where
  name : String
  isDir : Bool
  isSym : Bool
deriving DecidableEq, Repr

/-- The result of `fs.stat`, reduced to the one field the walker reads. -/
structure Stat where
  isDir : Bool
deriving DecidableEq, Repr

/-- A raw system error: its `code` property and the path of the failing
operation (Node.js filesystem errors carry both). -/
structure SysError where
  code : String
  path : Path
deriving DecidableEq, Repr

/-- The abstract filesystem interface consumed by the walker. -/
structure FS where
  opendir : Path → Except SysError (List Dirent)
  realpath : Path → Except SysError Path
  stat : Path → Except SysError Stat

/-- The sort mode of a traversal: null, the two literals, or a custom
comparator over directory entries. -/
inductive SortSpec where
  | null
  | asc
  | desc
  | custom (le : Dirent → Dirent → Bool)

/-- The sanitized options record as consumed by `walk`.  The AbortSignal is
modelled by `abortAt`: `none` is a null or never-aborted signal, and
`some t` means the abort is requested at logical time `t`, so every poll at
clock `t` or later observes it.  `onProgress` is a pure side effect and is
not modelled. -/
structure WalkOptions where
  maxDepth : Option ℚ
  includeRule : Option Pattern
  excludeRule : Option Pattern
  yieldDirectories : Bool
  followSymlinks : Bool
  suppressErrors : Bool
  abortAt : Option Nat
  sort : SortSpec
  withStats : Bool

/-- One yielded entry: the joined path, the Dirent, the depth of the yielding
frame, and the stats when requested and available. -/
structure Entry where
  path : Path
  dirent : Dirent
  depth : Nat
  stats : Option Stat
deriving DecidableEq, Repr

/-- A yielded entry stamped with the clock value at which it was yielded. -/
structure TimedEntry where
  entry : Entry
  tick : Nat
deriving DecidableEq, Repr

/-- The outcome of a frame (or of a whole traversal): the yielded entries in
order, the directories successfully opened, the final visited set, the final
clock, and the propagated error if the run threw. -/
structure WRes where
  out : List TimedEntry
  opened : List Path
  visited : List Path
  clock : Nat
  err : Option SysError
deriving DecidableEq, Repr

/-- Whether a poll at clock `c` observes the abort request
(`options.signal?.aborted`). -/
def abortedAt (o : WalkOptions) (c : Nat) : Bool :=
  match o.abortAt with
  | none => false
  | some t => decide (t ≤ c)

/-- The depth check `currentDepth > options.maxDepth` (line 17 of
src/core.js); `none` is Infinity, which no depth exceeds. -/
def depthExceeded (o : WalkOptions) (d : Nat) : Bool :=
  match o.maxDepth with
  | none => false
  | some m => decide (m < (d : ℚ))

/-- Embedding of `applyFilters` from `src/core.js`: exclude is evaluated
first and wins; include, when truthy, must also match.  Matching uses the
basename only. -/
def applyFilters (name : String) (o : WalkOptions) : Bool :=
  if patTruthy o.excludeRule && matchJs name o.excludeRule then false
  else if patTruthy o.includeRule && !matchJs name o.includeRule then false
  else true

/-- Embedding of `sortEntries` from `src/core.js`; locale-aware comparison is
modelled by lexicographic string order. -/
def sortEntries (l : List Dirent) : SortSpec → List Dirent
  | .null => l
  | .asc => l.mergeSort (fun a b => decide (a.name ≤ b.name))
  | .desc => l.mergeSort (fun a b => decide (b.name ≤ a.name))
  | .custom le => l.mergeSort le

/-- The collection loop of the sorting path (lines 52-56 of src/core.js):
entries are gathered one by one, with an abort poll (one clock tick) before
each; on an observed abort the loop breaks, dropping the rest. -/
def collectEntries (o : WalkOptions) : List Dirent → Nat → List Dirent × Nat
  | [], c => ([], c)
  | de :: rest, c =>
    if abortedAt o c then ([], c + 1)
    else
      let pr := collectEntries o rest (c + 1)
      (de :: pr.1, pr.2)

/-- The per-entry stats fetch (lines 91-97 and 113-119 of src/core.js): only
when `withStats` is set; a failure is swallowed (entry without stats) under
suppression and thrown otherwise. -/
def fetchStats (fs : FS) (o : WalkOptions) (entryPath : Path) (c : Nat) :
    (Option Stat ⊕ SysError) × Nat :=
  if o.withStats then
    match fs.stat entryPath with
    | .ok st => (.inl (some st), c + 1)
    | .error e => (if o.suppressErrors then .inl none else .inr e, c + 1)
  else (.inl none, c)

/-- The kind resolution for one entry (lines 72-81 of src/core.js): a symlink
is resolved via `stat` when following symlinks, a broken link counting as a
file; otherwise the Dirent flag decides.  Returns the flag and the advanced
clock. -/
def resolveKind (fs : FS) (o : WalkOptions) (entryPath : Path) (de : Dirent)
    (c : Nat) : Bool × Nat :=
  if de.isSym && o.followSymlinks then
    match fs.stat entryPath with
    | .ok st => (st.isDir, c + 1)
    | .error _ => (false, c + 1)
  else (de.isDir, c)

/-- The body of the entry-processing loop (lines 66-130 of src/core.js),
recursing on the remaining sibling list.  `walkChild` is the recursive call
into a subdirectory at depth `d + 1`.  Each iteration polls the signal
(breaking on abort), resolves the entry kind, applies the filters, yields
when applicable, and recurses into directories unconditionally.  A child
frame error is the outer catch of the frame: it abandons the remaining
siblings, swallowing under suppression and propagating otherwise. -/
def walkEntries (fs : FS) (o : WalkOptions)
    (walkChild : Path → List Path → Nat → Option WRes)
    (p : Path) (d : Nat) :
    List Dirent → List Path → Nat → Option WRes
  | [], vis, c => some ⟨[], [], vis, c, none⟩
  | de :: rest, vis, c =>
    if abortedAt o c then some ⟨[], [], vis, c + 1, none⟩
    else
      match resolveKind fs o (joinPath p de.name) de (c + 1) with
      | (isDirectory, c2) =>
        if isDirectory then
          match
            (if o.yieldDirectories && applyFilters de.name o then
              match fetchStats fs o (joinPath p de.name) c2 with
              | (.inr e, c3) => .inr (e, c3)
              | (.inl st, c3) =>
                .inl ([({ entry := ⟨joinPath p de.name, de, d, st⟩, tick := c3 } : TimedEntry)], c3)
            else .inl ([], c2) :
              (List TimedEntry × Nat) ⊕ (SysError × Nat)) with
          | .inr ec => some ⟨[], [], vis, ec.2, some ec.1⟩
          | .inl yc =>
            match walkChild (joinPath p de.name) vis yc.2 with
            | none => none
            | some ch =>
              match ch.err with
              | some e =>
                if o.suppressErrors then
                  some ⟨yc.1 ++ ch.out, ch.opened, ch.visited, ch.clock, none⟩
                else
                  some ⟨yc.1 ++ ch.out, ch.opened, ch.visited, ch.clock, some e⟩
              | none =>
                match walkEntries fs o walkChild p d rest ch.visited ch.clock with
                | none => none
                | some rr =>
                  some ⟨yc.1 ++ ch.out ++ rr.out, ch.opened ++ rr.opened,
                        rr.visited, rr.clock, rr.err⟩
        else
          if applyFilters de.name o then
            match fetchStats fs o (joinPath p de.name) c2 with
            | (.inr e, c3) => some ⟨[], [], vis, c3, some e⟩
            | (.inl st, c3) =>
              match walkEntries fs o walkChild p d rest vis c3 with
              | none => none
              | some rr =>
                some ⟨({ entry := ⟨joinPath p de.name, de, d, st⟩, tick := c3 } : TimedEntry)
                        :: rr.out,
                      rr.opened, rr.visited, rr.clock, rr.err⟩
          else
            walkEntries fs o walkChild p d rest vis c2

/-- Embedding of the walker generator `walk` from `src/core.js`.  A frame:
polls the signal, checks the depth, when following symlinks registers the
canonical identity (or, when canonicalization fails, the literal path) in
the visited set before opening the directory and skips an already-registered
directory, opens the directory (a failure being swallowed or thrown by
policy), optionally collects and sorts the sibling set, and processes the
entries. -/
def walkGo (fs : FS) (o : WalkOptions) :
    Nat → Path → Nat → List Path → Nat → Option WRes
  | 0, _, _, _, _ => none
  | Nat.succ fuel, dirPath, depth, visited, c0 =>
    if abortedAt o c0 then some ⟨[], [], visited, c0 + 1, none⟩
    else
      let c := c0 + 1
      if depthExceeded o depth then some ⟨[], [], visited, c, none⟩
      else
        let sym : (List Path × Nat) ⊕ WRes :=
          if o.followSymlinks then
            match fs.realpath dirPath with
            | .ok rp =>
              if rp ∈ visited then .inr ⟨[], [], visited, c + 1, none⟩
              else .inl (rp :: visited, c + 1)
            | .error e =>
              if dirPath ∈ visited then .inr ⟨[], [], visited, c + 1, none⟩
              else if !o.suppressErrors then
                .inr ⟨[], [], dirPath :: visited, c + 1, some e⟩
              else .inl (dirPath :: visited, c + 1)
          else .inl (visited, c)
        match sym with
        | .inr res => some res
        | .inl vc =>
          match fs.opendir dirPath with
          | .error e =>
            if !o.suppressErrors then some ⟨[], [], vc.1, vc.2 + 1, some e⟩
            else some ⟨[], [], vc.1, vc.2 + 1, none⟩
          | .ok listing =>
            let c2 := vc.2 + 1
            let entsPr : List Dirent × Nat :=
              match o.sort with
              | .null => (listing, c2)
              | s =>
                let pr := collectEntries o listing c2
                (sortEntries pr.1 s, pr.2)
            match walkEntries fs o
                (fun q vs cc => walkGo fs o fuel q (depth + 1) vs cc)
                dirPath depth entsPr.1 vc.1 entsPr.2 with
            | none => none
            | some r => some ⟨r.out, dirPath :: r.opened, r.visited, r.clock, r.err⟩

/-- A whole traversal from a root: depth 0, empty visited set, clock 0. -/
def walkRun (fs : FS) (o : WalkOptions) (root : Path) (fuel : Nat) : Option WRes :=
  walkGo fs o fuel root 0 [] 0

/-- The invariant of one walker frame: clock monotonicity, tick bounds,
emptiness under an observed abort, no surfaced error under suppression, at
most one late yield, the path and depth accounting, and growth of the
visited set. -/
structure FrameInv (o : WalkOptions) (p : Path) (d : Nat) (vis : List Path)
    (c : Nat) (r : WRes) : Prop where
  clock_le : c ≤ r.clock
  ticks : ∀ te ∈ r.out, c ≤ te.tick ∧ te.tick ≤ r.clock
  abort_out : abortedAt o c = true → r.out = []
  suppress_err : o.suppressErrors = true → r.err = none
  late : (r.out.filter (fun te => abortedAt o te.tick)).length ≤ 1
  paths : ∀ te ∈ r.out, p <+: te.entry.path ∧ d ≤ te.entry.depth ∧
      te.entry.path.length = p.length + 1 + (te.entry.depth - d)
  vis_sub : ∀ x ∈ vis, x ∈ r.visited

/-- The invariant of the sibling-processing loop; like `FrameInv` but each
yielded entry lies under one of the listed siblings. -/
structure EntriesInv (o : WalkOptions) (p : Path) (d : Nat) (ents : List Dirent)
    (vis : List Path) (c : Nat) (r : WRes) : Prop where
  clock_le : c ≤ r.clock
  ticks : ∀ te ∈ r.out, c ≤ te.tick ∧ te.tick ≤ r.clock
  abort_out : abortedAt o c = true → r.out = []
  suppress_err : o.suppressErrors = true → r.err = none
  late : (r.out.filter (fun te => abortedAt o te.tick)).length ≤ 1
  paths : ∀ te ∈ r.out, ∃ de ∈ ents, joinPath p de.name <+: te.entry.path ∧
      d ≤ te.entry.depth ∧
      te.entry.path.length = p.length + 1 + (te.entry.depth - d)
  vis_sub : ∀ x ∈ vis, x ∈ r.visited

/-! ### Filters control yielding only (support for the filter claims) -/

/-- The same options with the include/exclude rules removed. -/
def stripFilters (o : WalkOptions) : WalkOptions :=
  { o with includeRule := none, excludeRule := none }

/-- The relation between a filtered run and the run with the rules removed:
the same directories opened, the same visited set, clock and error, and the
filtered output is the basename-filtered projection of the unfiltered one. -/
def FilterRel (o : WalkOptions) : Option WRes → Option WRes → Prop
  | none, none => True
  | some a, some b =>
      a.out = b.out.filter (fun te => applyFilters te.entry.dirent.name o) ∧
      a.opened = b.opened ∧ a.visited = b.visited ∧ a.clock = b.clock ∧
      a.err = b.err
  | _, _ => False

/-- No later entry is a proper ancestor (by path prefix) of an earlier one:
the list-order rendering of "a directory entry precedes its descendants". -/
def AncestorsFirst (L : List TimedEntry) : Prop :=
  L.Pairwise (fun x y =>
    ¬(y.entry.path <+: x.entry.path ∧ y.entry.path.length < x.entry.path.length))

/-- Every subtree forms one contiguous block of the output: the entries lying
under any fixed path are consecutive, so a subtree is exhausted before the
traversal resumes elsewhere. -/
def SubtreeContiguous (L : List TimedEntry) : Prop :=
  ∀ q : Path, ∃ A B C, L = A ++ B ++ C ∧
    (∀ te ∈ A, ¬q <+: te.entry.path) ∧ (∀ te ∈ B, q <+: te.entry.path) ∧
    (∀ te ∈ C, ¬q <+: te.entry.path)

/-- A filesystem whose directory listings never repeat a name, as real
directories guarantee. -/
def FSNodup (fs : FS) : Prop :=
  ∀ p l, fs.opendir p = .ok l → (l.map Dirent.name).Nodup

/-! ### Concrete fixtures and per-claim computations -/

/-- The sanitized default configuration as `walk` receives it: unbounded
depth, no rules, files only, no symlink following, suppression on, null
signal, no sort, no stats. -/
def defaultWalkOptions : WalkOptions :=
  ⟨none, none, none, false, false, true, none, .null, false⟩

/-- The defaults with the depth limit set to zero. -/
def depthZeroOptions : WalkOptions :=
  { defaultWalkOptions with maxDepth := some 0 }

/-- The defaults with symlink following enabled. -/
def followOptions : WalkOptions :=
  { defaultWalkOptions with followSymlinks := true }

/-- A directory-stream record for a plain file. -/
def fileDirent (n : String) : Dirent := ⟨n, false, false⟩

/-- The directory-stream record of the symlink `link`. -/
def linkDirent : Dirent := ⟨"link", false, true⟩

/-- The cyclic filesystem of the termination claim: the root directory holds
the given files plus a symlink `link` pointing back at the root, so both the
root and `link` canonicalize to the root and list the same entries. -/
def cycleFS (files : List String) : FS where
  opendir p :=
    if p = [] ∨ p = ["link"] then .ok ((files.map fileDirent) ++ [linkDirent])
    else .error ⟨"ENOENT", p⟩
  realpath p := if p = [] ∨ p = ["link"] then .ok [] else .ok p
  stat p := .ok ⟨decide (p = ["link"])⟩

/-! ### The claims -/

/-- Example filesystem for witnesses: the root holds `alpha.txt`, `beta.txt`
and the subdirectory `sub` with `sub/gamma.txt`. -/
def exTreeFS : FS where
  opendir p :=
    if p = [] then
      .ok [⟨"alpha.txt", false, false⟩, ⟨"beta.txt", false, false⟩,
        ⟨"sub", true, false⟩]
    else if p = ["sub"] then .ok [⟨"gamma.txt", false, false⟩]
    else .error ⟨"ENOENT", p⟩
  realpath p := .ok p
  stat p := .ok ⟨decide (p = ["sub"])⟩

/-- Example filesystem whose subdirectory `bad` fails to open with ENOENT
while its sibling `z.txt` is readable. -/
def exBrokenFS : FS where
  opendir p :=
    if p = [] then .ok [⟨"bad", true, false⟩, ⟨"z.txt", false, false⟩]
    else .error ⟨"ENOENT", p⟩
  realpath p := .ok p
  stat _ := .ok ⟨false⟩

/-- The defaults with suppression disabled. -/
def noSuppressOptions : WalkOptions :=
  { defaultWalkOptions with suppressErrors := false }

/-- Suppression disabled and the cancellation already requested at start. -/
def presetAbortOptions : WalkOptions :=
  { noSuppressOptions with abortAt := some 0 }

/-- The defaults with a cancellation requested at logical time 0. -/
def abortAtZeroOptions : WalkOptions :=
  { defaultWalkOptions with abortAt := some 0 }

/-! ### First-fault propagation (support for the failure-semantics claim) -/

/-- The same options with error suppression enabled: the run the walker
performs when faults are tolerated instead of thrown. -/
def tolerant (o : WalkOptions) : WalkOptions := { o with suppressErrors := true }

/-- The error is the raw result of some filesystem call: what `walk`
rethrows is exactly what `fs.realpath`, `fs.opendir` or `fs.stat` produced,
never a wrapped value. -/
def rawFault (fs : FS) (e : SysError) : Prop :=
  ∃ p, fs.realpath p = .error e ∨ fs.opendir p = .error e ∨ fs.stat p = .error e

/-- Lockstep-until-fault relation between a strict run (suppression disabled)
and the tolerant run from the same state: while no fault occurs the two runs
coincide; once the strict run surfaces an error, that error is the raw result
of a filesystem call and the strict run's output is an initial segment of the
tolerant run's output -- nothing further was produced after the fault. -/
def SuppRel (fs : FS) : Option WRes → Option WRes → Prop
  | some r, some r' =>
      (r.err = none → r' = r) ∧
      (∀ e, r.err = some e → rawFault fs e ∧ r.out <+: r'.out)
  | _, _ => True

/-- Example filesystem for the fault-propagation witness: the root lists
`a.txt`, the unreadable subdirectory `bad`, then `z.txt`, so a strict scan
yields `a.txt`, faults on `bad` and never reaches `z.txt`. -/
def exMidFaultFS : FS where
  opendir p :=
    if p = [] then
      .ok [⟨"a.txt", false, false⟩, ⟨"bad", true, false⟩,
        ⟨"z.txt", false, false⟩]
    else .error ⟨"EACCES", p⟩
  realpath p := .ok p
  stat _ := .ok ⟨false⟩

/-! ### Theorems -/

/-! ### Support lemmas -/

theorem fetchStats_clock_le (fs : FS) (o : WalkOptions) (p : Path) (c : Nat) :
    c ≤ (fetchStats fs o p c).2 := by
  unfold fetchStats
  split
  · split <;> simp
  · simp

theorem fetchStats_inr_suppress (fs : FS) (o : WalkOptions) (p : Path) (c : Nat)
    (e : SysError) (c3 : Nat) (h : fetchStats fs o p c = (.inr e, c3)) :
    o.suppressErrors = false := by
  unfold fetchStats at h
  split at h
  · split at h
    · simp at h
    · split at h
      · simp at h
      · rename_i hs
        simpa using hs
  · simp at h

theorem resolveKind_clock_le (fs : FS) (o : WalkOptions) (p : Path) (de : Dirent)
    (c : Nat) : c ≤ (resolveKind fs o p de c).2 := by
  unfold resolveKind
  split
  · split <;> simp
  · simp

theorem collectEntries_clock_le (o : WalkOptions) (l : List Dirent) (c : Nat) :
    c ≤ (collectEntries o l c).2 := by
  induction l generalizing c with
  | nil => simp [collectEntries]
  | cons de rest ih =>
    simp only [collectEntries]
    split
    · simp
    · exact le_trans (by omega) (le_trans (ih (c + 1)) (le_of_eq rfl))

theorem collectEntries_prefix (o : WalkOptions) (l : List Dirent) (c : Nat) :
    (collectEntries o l c).1 <+: l := by
  induction l generalizing c with
  | nil => simp [collectEntries]
  | cons de rest ih =>
    simp only [collectEntries]
    split
    · exact List.nil_prefix
    · obtain ⟨t, ht⟩ := ih (c + 1)
      exact ⟨t, by simp [ht]⟩

/-- Monotonicity of the abort flag: once observed, every later poll observes
it. -/
theorem abortedAt_mono (o : WalkOptions) {c c' : Nat} (hcc : c ≤ c')
    (h : abortedAt o c = true) : abortedAt o c' = true := by
  cases ho : o.abortAt with
  | none => simp [abortedAt, ho] at h
  | some t =>
    simp only [abortedAt, ho, decide_eq_true_eq] at h ⊢
    omega

/-- Bounding the late entries of a concatenation when any late entry in the
first part forces the second part to be empty. -/
theorem filter_append_length_le_one {α} (f : α → Bool) (xs ys : List α)
    (hx : (xs.filter f).length ≤ 1) (hy : (ys.filter f).length ≤ 1)
    (hxy : ∀ x ∈ xs, f x = true → ys = []) :
    ((xs ++ ys).filter f).length ≤ 1 := by
  rw [List.filter_append, List.length_append]
  by_cases hfx : xs.filter f = []
  · simpa [hfx] using hy
  · obtain ⟨x, hxmem⟩ := List.exists_mem_of_ne_nil _ hfx
    have hxin := List.mem_filter.mp hxmem
    have hys : ys = [] := hxy x hxin.1 hxin.2
    simpa [hys] using hx

theorem walkEntries_inv (fs : FS) (o : WalkOptions)
    (wc : Path → List Path → Nat → Option WRes) (p : Path) (d : Nat)
    (hwc : ∀ q vs cc rc, wc q vs cc = some rc → FrameInv o q (d + 1) vs cc rc) :
    ∀ ents vis c r, walkEntries fs o wc p d ents vis c = some r →
      EntriesInv o p d ents vis c r := by
  intro ents
  induction ents with
  | nil =>
    intro vis c r h
    simp only [walkEntries, Option.some.injEq] at h
    subst h
    exact ⟨le_rfl, by simp, fun _ => rfl, fun _ => rfl, by simp, by simp, by simp⟩
  | cons de rest ih =>
    intro vis c r h
    simp only [walkEntries] at h
    split at h
    · -- abort poll observed: break
      simp only [Option.some.injEq] at h
      subst h
      exact ⟨by simp, by simp, fun _ => rfl, fun _ => rfl, by simp, by simp, by simp⟩
    · rename_i hab
      rcases hrk : resolveKind fs o (joinPath p de.name) de (c + 1) with ⟨isDir, c2⟩
      rw [hrk] at h
      have hc2 : c + 1 ≤ c2 := by
        have := resolveKind_clock_le fs o (joinPath p de.name) de (c + 1)
        rw [hrk] at this
        exact this
      dsimp only at h
      split at h
      · -- directory case
        split at h
        · -- stats fetch threw
          rename_i ec hsum
          split at hsum
          · rcases hfs : fetchStats fs o (joinPath p de.name) c2 with ⟨sv, c3⟩
            rw [hfs] at hsum
            have hc3 : c2 ≤ c3 := by
              have := fetchStats_clock_le fs o (joinPath p de.name) c2
              rw [hfs] at this
              exact this
            cases sv with
            | inl st => simp at hsum
            | inr e =>
              simp only [Sum.inr.injEq] at hsum
              simp only [Option.some.injEq] at h
              subst h
              rw [← hsum]
              refine ⟨by simp; omega, by simp, fun habt => absurd habt hab, ?_,
                by simp, by simp, by simp⟩
              intro hsup
              exact absurd (fetchStats_inr_suppress fs o (joinPath p de.name) c2 e c3 hfs)
                (by simp [hsup])
          · simp at hsum
        · -- a (possibly empty) yield, then the child recursion
          rename_i yc hsum
          have hyc : c2 ≤ yc.2 ∧
              (yc.1 = [] ∨ ∃ st, yc.1 =
                [⟨⟨joinPath p de.name, de, d, st⟩, yc.2⟩]) := by
            split at hsum
            · rcases hfs : fetchStats fs o (joinPath p de.name) c2 with ⟨sv, c3⟩
              rw [hfs] at hsum
              have hc3 : c2 ≤ c3 := by
                have := fetchStats_clock_le fs o (joinPath p de.name) c2
                rw [hfs] at this
                exact this
              cases sv with
              | inl st =>
                simp only [Sum.inl.injEq] at hsum
                rw [← hsum]
                exact ⟨hc3, Or.inr ⟨st, rfl⟩⟩
              | inr e => simp at hsum
            · simp only [Sum.inl.injEq] at hsum
              rw [← hsum]
              exact ⟨le_rfl, Or.inl rfl⟩
          have hyticks : ∀ te ∈ yc.1, te.tick = yc.2 := by
            rcases hyc.2 with hnil | ⟨st, hone⟩
            · simp [hnil]
            · simp [hone]
          have hypaths : ∀ te ∈ yc.1, te.entry.path = joinPath p de.name ∧
              te.entry.depth = d := by
            rcases hyc.2 with hnil | ⟨st, hone⟩
            · simp [hnil]
            · simp [hone]
          have hylen : (yc.1.filter (fun te => abortedAt o te.tick)).length ≤ 1 := by
            rcases hyc.2 with hnil | ⟨st, hone⟩
            · simp [hnil]
            · rw [hone]
              cases hf : abortedAt o yc.2 <;> simp [List.filter_cons, hf]
          cases hch : wc (joinPath p de.name) vis yc.2 with
          | none => rw [hch] at h; exact absurd h (by simp)
          | some ch =>
            rw [hch] at h
            dsimp only at h
            have hFI := hwc _ _ _ _ hch
            have hyc_ch : ∀ te ∈ yc.1, abortedAt o te.tick = true → ch.out = [] := by
              intro te hte hl
              exact hFI.abort_out (hyticks te hte ▸ hl)
            cases hce : ch.err with
            | some e =>
              rw [hce] at h
              dsimp only at h
              have hmain : ∀ er : Option SysError,
                  (o.suppressErrors = true → er = none) →
                  r = ⟨yc.1 ++ ch.out, ch.opened, ch.visited, ch.clock, er⟩ →
                  EntriesInv o p d (de :: rest) vis c r := by
                intro er her hr
                subst hr
                refine ⟨le_trans (by omega) (le_trans hyc.1 hFI.clock_le), ?_,
                  fun habt => absurd habt hab, her, ?_, ?_, hFI.vis_sub⟩
                · intro te hte
                  dsimp only at hte ⊢
                  rcases List.mem_append.mp hte with hte | hte
                  · have := hyticks te hte
                    have := hFI.clock_le
                    have := hyc.1
                    omega
                  · have := hFI.ticks te hte
                    have := hyc.1
                    omega
                · exact filter_append_length_le_one _ _ _ hylen hFI.late hyc_ch
                · intro te hte
                  dsimp only at hte ⊢
                  rcases List.mem_append.mp hte with hte | hte
                  · obtain ⟨hp, hd⟩ := hypaths te hte
                    refine ⟨de, List.mem_cons_self de rest, ?_, ?_, ?_⟩
                    · rw [hp]
                    · omega
                    · rw [hp, hd]
                      simp [joinPath]
                  · obtain ⟨hp, hd, hl⟩ := hFI.paths te hte
                    refine ⟨de, List.mem_cons_self de rest, hp, by omega, ?_⟩
                    rw [hl]
                    simp [joinPath]
                    omega
              split at h
              · rename_i hsup
                simp only [Option.some.injEq] at h
                exact hmain none (fun _ => rfl) h.symm
              · rename_i hsup
                simp only [Option.some.injEq] at h
                exact hmain (some e) (fun hs => absurd hs hsup) h.symm
            | none =>
              rw [hce] at h
              dsimp only at h
              cases hrr : walkEntries fs o wc p d rest ch.visited ch.clock with
              | none => rw [hrr] at h; exact absurd h (by simp)
              | some rr =>
                rw [hrr] at h
                simp only [Option.some.injEq] at h
                subst h
                have hEI := ih ch.visited ch.clock rr hrr
                refine ⟨le_trans (by omega)
                    (le_trans hyc.1 (le_trans hFI.clock_le hEI.clock_le)), ?_,
                  fun habt => absurd habt hab, hEI.suppress_err, ?_, ?_, ?_⟩
                · intro te hte
                  dsimp only at hte ⊢
                  rcases List.mem_append.mp hte with hte | hte
                  · rcases List.mem_append.mp hte with hte | hte
                    · have := hyticks te hte
                      have := hFI.clock_le
                      have := hEI.clock_le
                      have := hyc.1
                      omega
                    · have := hFI.ticks te hte
                      have := hEI.clock_le
                      have := hyc.1
                      omega
                  · have := hEI.ticks te hte
                    have := hFI.clock_le
                    have := hyc.1
                    omega
                · dsimp only
                  refine filter_append_length_le_one _ _ _ ?_ hEI.late ?_
                  · exact filter_append_length_le_one _ _ _ hylen hFI.late hyc_ch
                  · intro x hx hlx
                    refine hEI.abort_out (abortedAt_mono o ?_ hlx)
                    rcases List.mem_append.mp hx with hx | hx
                    · have := hyticks x hx
                      have := hFI.clock_le
                      omega
                    · exact (hFI.ticks x hx).2
                · intro te hte
                  dsimp only at hte ⊢
                  rcases List.mem_append.mp hte with hte | hte
                  · rcases List.mem_append.mp hte with hte | hte
                    · obtain ⟨hp, hd⟩ := hypaths te hte
                      refine ⟨de, List.mem_cons_self de rest, ?_, ?_, ?_⟩
                      · rw [hp]
                      · omega
                      · rw [hp, hd]
                        simp [joinPath]
                    · obtain ⟨hp, hd, hl⟩ := hFI.paths te hte
                      refine ⟨de, List.mem_cons_self de rest, hp, by omega, ?_⟩
                      rw [hl]
                      simp [joinPath]
                      omega
                  · obtain ⟨e2, he2, hrest⟩ := hEI.paths te hte
                    exact ⟨e2, List.mem_cons_of_mem _ he2, hrest⟩
                · intro x hx
                  exact hEI.vis_sub x (hFI.vis_sub x hx)
      · -- file case
        split at h
        · -- included
          rename_i hinc
          rcases hfs : fetchStats fs o (joinPath p de.name) c2 with ⟨sv, c3⟩
          rw [hfs] at h
          have hc3 : c2 ≤ c3 := by
            have := fetchStats_clock_le fs o (joinPath p de.name) c2
            rw [hfs] at this
            exact this
          cases sv with
          | inr e =>
            dsimp only at h
            simp only [Option.some.injEq] at h
            subst h
            refine ⟨by simp; omega, by simp, fun habt => absurd habt hab, ?_,
              by simp, by simp, by simp⟩
            intro hsup
            exact absurd (fetchStats_inr_suppress fs o (joinPath p de.name) c2 e c3 hfs)
              (by simp [hsup])
          | inl st =>
            dsimp only at h
            cases hrr : walkEntries fs o wc p d rest vis c3 with
            | none => rw [hrr] at h; exact absurd h (by simp)
            | some rr =>
              rw [hrr] at h
              simp only [Option.some.injEq] at h
              subst h
              have hEI := ih vis c3 rr hrr
              refine ⟨le_trans (by omega) hEI.clock_le, ?_,
                fun habt => absurd habt hab, hEI.suppress_err, ?_, ?_, hEI.vis_sub⟩
              · intro te hte
                dsimp only at hte ⊢
                rcases List.mem_cons.mp hte with hte | hte
                · subst hte
                  have := hEI.clock_le
                  constructor
                  · dsimp only
                    omega
                  · dsimp only
                    omega
                · have := hEI.ticks te hte
                  omega
              · have hsingle : (⟨⟨joinPath p de.name, de, d, st⟩, c3⟩ : TimedEntry) :: rr.out =
                    [⟨⟨joinPath p de.name, de, d, st⟩, c3⟩] ++ rr.out := by simp
                rw [hsingle]
                refine filter_append_length_le_one _ _ _ ?_ hEI.late ?_
                · cases hf : abortedAt o c3 <;> simp [List.filter_cons, hf]
                · intro x hx hlx
                  simp only [List.mem_singleton] at hx
                  subst hx
                  exact hEI.abort_out hlx
              · intro te hte
                dsimp only at hte ⊢
                rcases List.mem_cons.mp hte with hte | hte
                · subst hte
                  refine ⟨de, List.mem_cons_self de rest, by simp, le_rfl, ?_⟩
                  simp [joinPath]
                · obtain ⟨e2, he2, hrest⟩ := hEI.paths te hte
                  exact ⟨e2, List.mem_cons_of_mem _ he2, hrest⟩
        · -- not included: tail call
          rename_i hinc
          have hr := ih vis c2 r h
          refine ⟨le_trans (by omega) hr.clock_le,
            fun te hte => ⟨le_trans (by omega) (hr.ticks te hte).1, (hr.ticks te hte).2⟩,
            fun habt => absurd habt hab,
            hr.suppress_err, hr.late, ?_, hr.vis_sub⟩
          intro te hte
          obtain ⟨e, he, hrest⟩ := hr.paths te hte
          exact ⟨e, List.mem_cons_of_mem _ he, hrest⟩

theorem walkGo_inv (fs : FS) (o : WalkOptions) :
    ∀ fuel p d vis c r, walkGo fs o fuel p d vis c = some r →
      FrameInv o p d vis c r := by
  intro fuel
  induction fuel with
  | zero =>
    intro p d vis c r h
    simp [walkGo] at h
  | succ fuel ih =>
    intro p d vis c r h
    simp only [walkGo] at h
    split at h
    · -- abort observed at frame entry
      simp only [Option.some.injEq] at h
      subst h
      exact ⟨by simp, by simp, fun _ => rfl, fun _ => rfl, by simp, by simp, by simp⟩
    · rename_i hab
      split at h
      · -- depth exceeded: prune
        simp only [Option.some.injEq] at h
        subst h
        exact ⟨by simp, by simp, fun _ => rfl, fun _ => rfl, by simp, by simp, by simp⟩
      · -- symlink registration step
        split at h
        · -- early return out of the symlink step
          rename_i res hsym
          simp only [Option.some.injEq] at h
          subst h
          split at hsym
          · split at hsym
            · split at hsym
              · simp only [Sum.inr.injEq] at hsym
                subst hsym
                exact ⟨by dsimp only; omega, by simp, fun _ => rfl, fun _ => rfl, by simp, by simp,
                  by simp⟩
              · simp at hsym
            · split at hsym
              · simp only [Sum.inr.injEq] at hsym
                subst hsym
                exact ⟨by dsimp only; omega, by simp, fun _ => rfl, fun _ => rfl, by simp, by simp,
                  by simp⟩
              · split at hsym
                · rename_i hns
                  simp only [Sum.inr.injEq] at hsym
                  subst hsym
                  refine ⟨by dsimp only; omega, by simp, fun _ => rfl, ?_, by simp, by simp, ?_⟩
                  · intro hsup
                    simp [hsup] at hns
                  · intro x hx
                    simp [hx]
                · simp at hsym
          · simp at hsym
        · -- continue with the (possibly extended) visited set
          rename_i vc hsym
          have hvc : c + 1 ≤ vc.2 + 1 ∧ (∀ x ∈ vis, x ∈ vc.1) := by
            split at hsym
            · split at hsym
              · split at hsym
                · simp at hsym
                · simp only [Sum.inl.injEq] at hsym
                  subst hsym
                  exact ⟨by omega, fun x hx => by simp [hx]⟩
              · split at hsym
                · simp at hsym
                · split at hsym
                  · simp at hsym
                  · simp only [Sum.inl.injEq] at hsym
                    subst hsym
                    exact ⟨by omega, fun x hx => by simp [hx]⟩
            · simp only [Sum.inl.injEq] at hsym
              subst hsym
              exact ⟨by omega, fun x hx => hx⟩
          cases hod : fs.opendir p with
          | error e =>
            rw [hod] at h
            dsimp only at h
            split at h
            · rename_i hns
              simp only [Option.some.injEq] at h
              subst h
              refine ⟨by dsimp only; omega, by simp, fun _ => rfl, ?_, by simp, by simp,
                hvc.2⟩
              intro hsup
              simp [hsup] at hns
            · simp only [Option.some.injEq] at h
              subst h
              exact ⟨by dsimp only; omega, by simp, fun _ => rfl, fun _ => rfl, by simp,
                by simp, hvc.2⟩
          | ok listing =>
            rw [hod] at h
            dsimp only at h
            rcases hent : (match o.sort with
              | SortSpec.null => (listing, vc.2 + 1)
              | s =>
                ((sortEntries (collectEntries o listing (vc.2 + 1)).1 s),
                  (collectEntries o listing (vc.2 + 1)).2)) with ⟨ents, c3⟩
            rw [hent] at h
            have hc3 : vc.2 + 1 ≤ c3 := by
              split at hent
              · simp only [Prod.mk.injEq] at hent
                omega
              · simp only [Prod.mk.injEq] at hent
                have := collectEntries_clock_le o listing (vc.2 + 1)
                omega
            dsimp only at h
            cases hcall : walkEntries fs o
                (fun q vs cc => walkGo fs o fuel q (d + 1) vs cc) p d ents vc.1 c3 with
            | none => rw [hcall] at h; exact absurd h (by simp)
            | some rw =>
              rw [hcall] at h
              simp only [Option.some.injEq] at h
              subst h
              have hEI := walkEntries_inv fs o _ p d
                (fun q vs cc rc hq => ih q (d + 1) vs cc rc hq) ents vc.1 c3 rw hcall
              refine ⟨by dsimp only; have := hEI.clock_le; omega, ?_,
                fun habt => absurd habt hab, hEI.suppress_err, hEI.late, ?_, ?_⟩
              · intro te hte
                dsimp only at hte ⊢
                have := hEI.ticks te hte
                omega
              · intro te hte
                dsimp only at hte ⊢
                obtain ⟨de, _, hpre, hd, hl⟩ := hEI.paths te hte
                refine ⟨?_, hd, hl⟩
                exact (List.prefix_append p [de.name]).trans hpre
              · intro x hx
                exact hEI.vis_sub x (hvc.2 x hx)

/-- With no rules installed, every name passes the filters. -/
theorem applyFilters_strip (o : WalkOptions) (name : String) :
    applyFilters name (stripFilters o) = true := by
  simp [applyFilters, stripFilters, patTruthy]

theorem walkEntries_filterRel (fs : FS) (o : WalkOptions)
    (wc wc' : Path → List Path → Nat → Option WRes) (p : Path) (d : Nat)
    (ho : o.abortAt = none) (hw : o.withStats = false)
    (hwc : ∀ q vs cc, FilterRel o (wc q vs cc) (wc' q vs cc)) :
    ∀ ents vis c, FilterRel o (walkEntries fs o wc p d ents vis c)
      (walkEntries fs (stripFilters o) wc' p d ents vis c) := by
  intro ents
  have habortn : ∀ cc, ¬abortedAt o cc = true := by
    intro cc
    simp [abortedAt, ho]
  have habortn' : ∀ cc, ¬abortedAt (stripFilters o) cc = true := by
    intro cc
    simp [abortedAt, stripFilters, ho]
  have hrks : ∀ ep de cc, resolveKind fs (stripFilters o) ep de cc =
      resolveKind fs o ep de cc := by
    intro ep de cc
    simp [resolveKind, stripFilters]
  have hfsst : ∀ ep cc, fetchStats fs o ep cc = (.inl none, cc) := by
    intro ep cc
    simp [fetchStats, hw]
  have hfsst' : ∀ ep cc, fetchStats fs (stripFilters o) ep cc = (.inl none, cc) := by
    intro ep cc
    simp [fetchStats, stripFilters, hw]
  have hsYD : (stripFilters o).yieldDirectories = o.yieldDirectories := rfl
  have hsSup : (stripFilters o).suppressErrors = o.suppressErrors := rfl
  induction ents with
  | nil =>
    intro vis c
    simp only [walkEntries]
    exact ⟨by simp, rfl, rfl, rfl, rfl⟩
  | cons de rest ih =>
    intro vis c
    simp only [walkEntries]
    rw [if_neg (habortn c), if_neg (habortn' c), hrks]
    rcases hrk : resolveKind fs o (joinPath p de.name) de (c + 1) with ⟨isDir, c2⟩
    try dsimp only
    rw [applyFilters_strip, hsYD]
    by_cases hdir : isDir = true
    · rw [if_pos hdir, if_pos hdir]
      rw [hfsst, hfsst']
      try dsimp only
      -- the two yield decisions: with filters, and with match-all
      by_cases hyd : o.yieldDirectories = true
      · rw [hyd]
        by_cases hF : applyFilters de.name o = true
        · rw [hF]
          simp only [Bool.and_self, Bool.and_true, eq_self_iff_true, if_true]
          try dsimp only
          have hchrel := hwc (joinPath p de.name) vis c2
          cases hl : wc (joinPath p de.name) vis c2 with
          | none =>
            cases hl' : wc' (joinPath p de.name) vis c2 with
            | none => simp only [FilterRel]
            | some ch' =>
              rw [hl, hl'] at hchrel
              exact absurd hchrel (by simp [FilterRel])
          | some ch =>
            cases hl' : wc' (joinPath p de.name) vis c2 with
            | none =>
              rw [hl, hl'] at hchrel
              exact absurd hchrel (by simp [FilterRel])
            | some ch' =>
              rw [hl, hl'] at hchrel
              obtain ⟨hout, hop, hvis, hck, herr⟩ := hchrel
              try dsimp only
              rw [herr]
              cases hche : ch'.err with
              | some e =>
                try dsimp only
                by_cases hsup : o.suppressErrors = true
                · rw [if_pos hsup, if_pos (hsSup.trans hsup)]
                  refine ⟨?_, hop, hvis, hck, rfl⟩
                  simp only [List.filter_append, hout, List.filter_cons, hF]
                  simp
                · rw [if_neg hsup, if_neg (fun hh => hsup (hsSup.symm.trans hh))]
                  refine ⟨?_, hop, hvis, hck, rfl⟩
                  simp only [List.filter_append, hout, List.filter_cons, hF]
                  simp
              | none =>
                try dsimp only
                rw [hvis, hck]
                have hrest := ih ch'.visited ch'.clock
                cases hr : walkEntries fs o wc p d rest ch'.visited ch'.clock with
                | none =>
                  cases hr' : walkEntries fs (stripFilters o) wc' p d rest
                      ch'.visited ch'.clock with
                  | none => simp only [FilterRel]
                  | some rr' =>
                    rw [hr, hr'] at hrest
                    exact absurd hrest (by simp [FilterRel])
                | some rr =>
                  cases hr' : walkEntries fs (stripFilters o) wc' p d rest
                      ch'.visited ch'.clock with
                  | none =>
                    rw [hr, hr'] at hrest
                    exact absurd hrest (by simp [FilterRel])
                  | some rr' =>
                    rw [hr, hr'] at hrest
                    obtain ⟨r1, r2, r3, r4, r5⟩ := hrest
                    refine ⟨?_, by rw [hop, r2], r3, r4, r5⟩
                    simp only [List.filter_append, hout, r1, List.filter_cons, hF]
                    simp
        · -- directory entry filtered out: not yielded, still recursed
          have hcl : ¬((true && applyFilters de.name o) = true) := by simp [hF]
          have hcr : ((true && true) = true) := by simp
          rw [if_neg hcl, if_pos hcr]
          try dsimp only
          have hchrel := hwc (joinPath p de.name) vis c2
          cases hl : wc (joinPath p de.name) vis c2 with
          | none =>
            cases hl' : wc' (joinPath p de.name) vis c2 with
            | none => simp only [FilterRel]
            | some ch' =>
              rw [hl, hl'] at hchrel
              exact absurd hchrel (by simp [FilterRel])
          | some ch =>
            cases hl' : wc' (joinPath p de.name) vis c2 with
            | none =>
              rw [hl, hl'] at hchrel
              exact absurd hchrel (by simp [FilterRel])
            | some ch' =>
              rw [hl, hl'] at hchrel
              obtain ⟨hout, hop, hvis, hck, herr⟩ := hchrel
              try dsimp only
              rw [herr]
              cases hche : ch'.err with
              | some e =>
                try dsimp only
                by_cases hsup : o.suppressErrors = true
                · rw [if_pos hsup, if_pos (hsSup.trans hsup)]
                  refine ⟨?_, hop, hvis, hck, rfl⟩
                  simp only [List.filter_append, hout, List.filter_cons, hF]
                  simp
                · rw [if_neg hsup, if_neg (fun hh => hsup (hsSup.symm.trans hh))]
                  refine ⟨?_, hop, hvis, hck, rfl⟩
                  simp only [List.filter_append, hout, List.filter_cons, hF]
                  simp
              | none =>
                try dsimp only
                rw [hvis, hck]
                have hrest := ih ch'.visited ch'.clock
                cases hr : walkEntries fs o wc p d rest ch'.visited ch'.clock with
                | none =>
                  cases hr' : walkEntries fs (stripFilters o) wc' p d rest
                      ch'.visited ch'.clock with
                  | none => simp only [FilterRel]
                  | some rr' =>
                    rw [hr, hr'] at hrest
                    exact absurd hrest (by simp [FilterRel])
                | some rr =>
                  cases hr' : walkEntries fs (stripFilters o) wc' p d rest
                      ch'.visited ch'.clock with
                  | none =>
                    rw [hr, hr'] at hrest
                    exact absurd hrest (by simp [FilterRel])
                  | some rr' =>
                    rw [hr, hr'] at hrest
                    obtain ⟨r1, r2, r3, r4, r5⟩ := hrest
                    refine ⟨?_, by rw [hop, r2], r3, r4, r5⟩
                    simp only [List.filter_append, hout, r1, List.filter_cons, hF]
                    simp
      · -- yieldDirectories disabled: neither run yields the directory
        have hyd0 : o.yieldDirectories = false := by
          cases hy : o.yieldDirectories
          · rfl
          · exact absurd hy hyd
        rw [hyd0]
        have hcl : ¬((false && applyFilters de.name o) = true) := by simp
        have hcr : ¬((false && true) = true) := by simp
        rw [if_neg hcl, if_neg hcr]
        try dsimp only
        have hchrel := hwc (joinPath p de.name) vis c2
        cases hl : wc (joinPath p de.name) vis c2 with
        | none =>
          cases hl' : wc' (joinPath p de.name) vis c2 with
          | none => simp only [FilterRel]
          | some ch' =>
            rw [hl, hl'] at hchrel
            exact absurd hchrel (by simp [FilterRel])
        | some ch =>
          cases hl' : wc' (joinPath p de.name) vis c2 with
          | none =>
            rw [hl, hl'] at hchrel
            exact absurd hchrel (by simp [FilterRel])
          | some ch' =>
            rw [hl, hl'] at hchrel
            obtain ⟨hout, hop, hvis, hck, herr⟩ := hchrel
            try dsimp only
            rw [herr]
            cases hche : ch'.err with
            | some e =>
              try dsimp only
              by_cases hsup : o.suppressErrors = true
              · rw [if_pos hsup, if_pos (hsSup.trans hsup)]
                refine ⟨?_, hop, hvis, hck, rfl⟩
                simp only [List.filter_append, hout]
                simp
              · rw [if_neg hsup, if_neg (fun hh => hsup (hsSup.symm.trans hh))]
                refine ⟨?_, hop, hvis, hck, rfl⟩
                simp only [List.filter_append, hout]
                simp
            | none =>
              try dsimp only
              rw [hvis, hck]
              have hrest := ih ch'.visited ch'.clock
              cases hr : walkEntries fs o wc p d rest ch'.visited ch'.clock with
              | none =>
                cases hr' : walkEntries fs (stripFilters o) wc' p d rest
                    ch'.visited ch'.clock with
                | none => simp only [FilterRel]
                | some rr' =>
                  rw [hr, hr'] at hrest
                  exact absurd hrest (by simp [FilterRel])
              | some rr =>
                cases hr' : walkEntries fs (stripFilters o) wc' p d rest
                    ch'.visited ch'.clock with
                | none =>
                  rw [hr, hr'] at hrest
                  exact absurd hrest (by simp [FilterRel])
                | some rr' =>
                  rw [hr, hr'] at hrest
                  obtain ⟨r1, r2, r3, r4, r5⟩ := hrest
                  refine ⟨?_, by rw [hop, r2], r3, r4, r5⟩
                  simp only [List.filter_append, hout, r1]
                  simp
    · -- file entry
      rw [if_neg hdir, if_neg hdir]
      by_cases hF : applyFilters de.name o = true
      · rw [hF]
        simp only [eq_self_iff_true, if_true]
        rw [hfsst, hfsst']
        try dsimp only
        have hrest := ih vis c2
        cases hr : walkEntries fs o wc p d rest vis c2 with
        | none =>
          cases hr' : walkEntries fs (stripFilters o) wc' p d rest vis c2 with
          | none => simp only [FilterRel]
          | some rr' =>
            rw [hr, hr'] at hrest
            exact absurd hrest (by simp [FilterRel])
        | some rr =>
          cases hr' : walkEntries fs (stripFilters o) wc' p d rest vis c2 with
          | none =>
            rw [hr, hr'] at hrest
            exact absurd hrest (by simp [FilterRel])
          | some rr' =>
            rw [hr, hr'] at hrest
            obtain ⟨r1, r2, r3, r4, r5⟩ := hrest
            refine ⟨?_, r2, r3, r4, r5⟩
            simp only [List.filter_cons, hF, r1]
            simp
      · have hF0 : applyFilters de.name o = false := by
          cases hFx : applyFilters de.name o
          · rfl
          · exact absurd hFx hF
        rw [hF0]
        have hcf : ¬(false = true) := by simp
        rw [if_neg hcf]
        simp only [eq_self_iff_true, if_true]
        rw [hfsst']
        try dsimp only
        have hrest := ih vis c2
        cases hr : walkEntries fs o wc p d rest vis c2 with
        | none =>
          cases hr' : walkEntries fs (stripFilters o) wc' p d rest vis c2 with
          | none => simp only [FilterRel]
          | some rr' =>
            rw [hr, hr'] at hrest
            exact absurd hrest (by simp [FilterRel])
        | some rr =>
          cases hr' : walkEntries fs (stripFilters o) wc' p d rest vis c2 with
          | none =>
            rw [hr, hr'] at hrest
            exact absurd hrest (by simp [FilterRel])
          | some rr' =>
            rw [hr, hr'] at hrest
            obtain ⟨r1, r2, r3, r4, r5⟩ := hrest
            refine ⟨?_, r2, r3, r4, r5⟩
            simp only [List.filter_cons, hF0, r1]
            simp

/-- Without a signal, the collection loop gathers the entire listing, one
tick per entry. -/
theorem collectEntries_noabort (o : WalkOptions) (ho : o.abortAt = none) :
    ∀ (l : List Dirent) (c : Nat), collectEntries o l c = (l, c + l.length) := by
  intro l
  induction l with
  | nil => intro c; simp [collectEntries]
  | cons de rest ih =>
    intro c
    have : ¬abortedAt o c = true := by simp [abortedAt, ho]
    simp only [collectEntries, if_neg this, ih]
    simp
    omega

theorem walkGo_filterRel (fs : FS) (o : WalkOptions)
    (ho : o.abortAt = none) (hw : o.withStats = false) :
    ∀ fuel p d vis c, FilterRel o (walkGo fs o fuel p d vis c)
      (walkGo fs (stripFilters o) fuel p d vis c) := by
  have habortn : ∀ cc, ¬abortedAt o cc = true := by
    intro cc
    simp [abortedAt, ho]
  have habortn' : ∀ cc, ¬abortedAt (stripFilters o) cc = true := by
    intro cc
    simp [abortedAt, stripFilters, ho]
  have hsDep : ∀ dd, depthExceeded (stripFilters o) dd = depthExceeded o dd :=
    fun _ => rfl
  have hsFL : (stripFilters o).followSymlinks = o.followSymlinks := rfl
  have hsSup : (stripFilters o).suppressErrors = o.suppressErrors := rfl
  have hsSort : (stripFilters o).sort = o.sort := rfl
  have hsColl : ∀ (l : List Dirent) cc,
      collectEntries (stripFilters o) l cc = collectEntries o l cc := by
    intro l cc
    rw [collectEntries_noabort o ho, collectEntries_noabort (stripFilters o) (by rw [show (stripFilters o).abortAt = o.abortAt from rfl, ho])]
  intro fuel
  induction fuel with
  | zero =>
    intro p d vis c
    simp only [walkGo, FilterRel]
  | succ fuel ih =>
    intro p d vis c
    simp only [walkGo]
    rw [if_neg (habortn c), if_neg (habortn' c), hsDep]
    by_cases hd : depthExceeded o d = true
    · rw [if_pos hd, if_pos hd]
      exact ⟨by simp, rfl, rfl, rfl, rfl⟩
    · rw [if_neg hd, if_neg hd, hsFL, hsSup]
      simp only [hsColl, hsSort]
      have hcont : ∀ vis' c',
          FilterRel o
            (match fs.opendir p with
              | .error e =>
                if (!o.suppressErrors) = true then some ⟨[], [], vis', c' + 1, some e⟩
                else some ⟨[], [], vis', c' + 1, none⟩
              | .ok listing =>
                match walkEntries fs o
                    (fun q vs cc => walkGo fs o fuel q (d + 1) vs cc) p d
                    (match o.sort with
                      | SortSpec.null => (listing, c' + 1)
                      | s => (sortEntries (collectEntries o listing (c' + 1)).1 s,
                          (collectEntries o listing (c' + 1)).2)).1
                    vis'
                    (match o.sort with
                      | SortSpec.null => (listing, c' + 1)
                      | s => (sortEntries (collectEntries o listing (c' + 1)).1 s,
                          (collectEntries o listing (c' + 1)).2)).2 with
                | none => none
                | some r => some ⟨r.out, p :: r.opened, r.visited, r.clock, r.err⟩)
            (match fs.opendir p with
              | .error e =>
                if (!o.suppressErrors) = true then some ⟨[], [], vis', c' + 1, some e⟩
                else some ⟨[], [], vis', c' + 1, none⟩
              | .ok listing =>
                match walkEntries fs (stripFilters o)
                    (fun q vs cc => walkGo fs (stripFilters o) fuel q (d + 1) vs cc) p d
                    (match o.sort with
                      | SortSpec.null => (listing, c' + 1)
                      | s => (sortEntries (collectEntries o listing (c' + 1)).1 s,
                          (collectEntries o listing (c' + 1)).2)).1
                    vis'
                    (match o.sort with
                      | SortSpec.null => (listing, c' + 1)
                      | s => (sortEntries (collectEntries o listing (c' + 1)).1 s,
                          (collectEntries o listing (c' + 1)).2)).2 with
                | none => none
                | some r => some ⟨r.out, p :: r.opened, r.visited, r.clock, r.err⟩) := by
        intro vis' c'
        cases hod : fs.opendir p with
        | error e =>
          dsimp only
          by_cases hsup : (!o.suppressErrors) = true
          · rw [if_pos hsup]
            exact ⟨by simp, rfl, rfl, rfl, rfl⟩
          · rw [if_neg hsup]
            exact ⟨by simp, rfl, rfl, rfl, rfl⟩
        | ok listing =>
          dsimp only
          have hrel : ∀ ents vvv ccc,
              FilterRel o
                (match walkEntries fs o
                    (fun q vs cc => walkGo fs o fuel q (d + 1) vs cc)
                    p d ents vvv ccc with
                  | none => none
                  | some r => some ⟨r.out, p :: r.opened, r.visited, r.clock, r.err⟩)
                (match walkEntries fs (stripFilters o)
                    (fun q vs cc => walkGo fs (stripFilters o) fuel q (d + 1) vs cc)
                    p d ents vvv ccc with
                  | none => none
                  | some r => some ⟨r.out, p :: r.opened, r.visited, r.clock, r.err⟩) := by
            intro ents vvv ccc
            have h1 := walkEntries_filterRel fs o
              (fun q vs cc => walkGo fs o fuel q (d + 1) vs cc)
              (fun q vs cc => walkGo fs (stripFilters o) fuel q (d + 1) vs cc)
              p d ho hw (fun q vs cc => ih q (d + 1) vs cc) ents vvv ccc
            cases h2 : walkEntries fs o
                (fun q vs cc => walkGo fs o fuel q (d + 1) vs cc) p d ents vvv ccc with
            | none =>
              cases h3 : walkEntries fs (stripFilters o)
                  (fun q vs cc => walkGo fs (stripFilters o) fuel q (d + 1) vs cc)
                  p d ents vvv ccc with
              | none => simp only [FilterRel]
              | some r' =>
                rw [h2, h3] at h1
                exact absurd h1 (by simp [FilterRel])
            | some r =>
              cases h3 : walkEntries fs (stripFilters o)
                  (fun q vs cc => walkGo fs (stripFilters o) fuel q (d + 1) vs cc)
                  p d ents vvv ccc with
              | none =>
                rw [h2, h3] at h1
                exact absurd h1 (by simp [FilterRel])
              | some r' =>
                rw [h2, h3] at h1
                obtain ⟨r1, r2, r3, r4, r5⟩ := h1
                exact ⟨r1, by rw [r2], r3, r4, r5⟩
          cases hs : o.sort with
          | null => exact hrel _ _ _
          | asc => exact hrel _ _ _
          | desc => exact hrel _ _ _
          | custom le => exact hrel _ _ _
      by_cases hfl : o.followSymlinks = true
      · rw [if_pos hfl]
        cases hrp : fs.realpath p with
        | ok rp =>
          dsimp only
          by_cases hmem : rp ∈ vis
          · rw [if_pos hmem]
            exact ⟨by simp, rfl, rfl, rfl, rfl⟩
          · rw [if_neg hmem]
            dsimp only
            exact hcont (rp :: vis) (c + 1 + 1)
        | error e =>
          dsimp only
          by_cases hmem : p ∈ vis
          · rw [if_pos hmem]
            exact ⟨by simp, rfl, rfl, rfl, rfl⟩
          · rw [if_neg hmem]
            by_cases hns : (!o.suppressErrors) = true
            · rw [if_pos hns]
              exact ⟨by simp, rfl, rfl, rfl, rfl⟩
            · rw [if_neg hns]
              dsimp only
              exact hcont (p :: vis) (c + 1 + 1)
      · rw [if_neg hfl]
        dsimp only
        exact hcont vis (c + 1)

/-! ### The strict run against the tolerant run -/

theorem prefix_append_congr {α} (l : List α) {x y : List α} (h : x <+: y) :
    l ++ x <+: l ++ y := by
  obtain ⟨u, hu⟩ := h
  exact ⟨u, by rw [List.append_assoc, hu]⟩

theorem prefix_append_mid {α} (l : List α) {x y : List α} (h : x <+: y)
    (t : List α) : l ++ x <+: l ++ y ++ t := by
  obtain ⟨u, hu⟩ := h
  refine ⟨u ++ t, ?_⟩
  rw [← hu]
  simp [List.append_assoc]

theorem prefix_cons_congr {α} (a : α) {x y : List α} (h : x <+: y) :
    a :: x <+: a :: y := by
  obtain ⟨u, hu⟩ := h
  exact ⟨u, by rw [List.cons_append, hu]⟩

theorem suppRel_none_left (fs : FS) (x : Option WRes) : SuppRel fs none x := by
  cases x <;> simp [SuppRel]

theorem suppRel_none_right (fs : FS) (x : Option WRes) : SuppRel fs x none := by
  cases x <;> simp [SuppRel]

/-- The relation at identical fault-free frames. -/
theorem suppRel_same (fs : FS) (out : List TimedEntry) (op vis : List Path)
    (c : Nat) :
    SuppRel fs (some ⟨out, op, vis, c, none⟩) (some ⟨out, op, vis, c, none⟩) :=
  ⟨fun _ => rfl, fun _ he => nomatch he⟩

/-- The relation when the strict side faults having yielded nothing: whatever
the tolerant side does, the empty output is an initial segment of its
output. -/
theorem suppRel_fault_left (fs : FS) (vis : List Path) (c : Nat)
    (e : SysError) (hraw : rawFault fs e) (x : Option WRes) :
    SuppRel fs (some ⟨[], [], vis, c, some e⟩) x := by
  cases x with
  | none => simp [SuppRel]
  | some r' =>
    refine ⟨fun h => (nomatch h), fun e' he' => ?_⟩
    have he2 : some e = some e' := he'
    obtain rfl := Option.some.inj he2
    exact ⟨hraw, ⟨r'.out, rfl⟩⟩

/-- The collection loop ignores the suppression flag. -/
theorem collectEntries_tolerant (o : WalkOptions) :
    ∀ (l : List Dirent) (c : Nat),
      collectEntries (tolerant o) l c = collectEntries o l c := by
  intro l
  induction l with
  | nil => intro c; rfl
  | cons de rest ih =>
    intro c
    simp only [collectEntries]
    have hab : abortedAt (tolerant o) c = abortedAt o c := rfl
    rw [hab, ih]

/-- A stats fetch that does not fault is unchanged by enabling suppression. -/
theorem fetchStats_tolerant_inl (fs : FS) (o : WalkOptions) (p : Path)
    (c : Nat) (st : Option Stat) (c3 : Nat)
    (h : fetchStats fs o p c = (.inl st, c3)) :
    fetchStats fs (tolerant o) p c = (.inl st, c3) := by
  have hws : (tolerant o).withStats = o.withStats := rfl
  have hsup : (tolerant o).suppressErrors = true := rfl
  unfold fetchStats at h ⊢
  rw [hws]
  by_cases hw : o.withStats = true
  · rw [if_pos hw] at h ⊢
    cases hst : fs.stat p with
    | ok s =>
      rw [hst] at h
      dsimp only at h ⊢
      exact h
    | error e =>
      rw [hst] at h
      dsimp only at h ⊢
      rw [hsup, if_pos rfl]
      by_cases hsu : o.suppressErrors = true
      · rw [if_pos hsu] at h
        exact h
      · rw [if_neg hsu] at h
        simp at h
  · rw [if_neg hw] at h ⊢
    exact h

/-- A faulting stats fetch: the strict run throws the raw `stat` error where
the tolerant run yields the entry without metadata. -/
theorem fetchStats_tolerant_inr (fs : FS) (o : WalkOptions) (p : Path)
    (c : Nat) (e : SysError) (c3 : Nat)
    (h : fetchStats fs o p c = (.inr e, c3)) :
    fetchStats fs (tolerant o) p c = (.inl none, c3) ∧ fs.stat p = .error e := by
  have hws : (tolerant o).withStats = o.withStats := rfl
  have hsup : (tolerant o).suppressErrors = true := rfl
  unfold fetchStats at h ⊢
  rw [hws]
  by_cases hw : o.withStats = true
  · rw [if_pos hw] at h ⊢
    cases hst : fs.stat p with
    | ok s =>
      rw [hst] at h
      simp at h
    | error e0 =>
      rw [hst] at h
      dsimp only at h ⊢
      rw [hsup, if_pos rfl]
      by_cases hsu : o.suppressErrors = true
      · rw [if_pos hsu] at h
        simp at h
      · rw [if_neg hsu] at h
        simp only [Prod.mk.injEq, Sum.inr.injEq] at h
        obtain ⟨he, hc⟩ := h
        exact ⟨by rw [hc], by rw [he]⟩
  · rw [if_neg hw] at h
    simp at h

theorem walkEntries_suppRel (fs : FS) (o : WalkOptions)
    (wc wc' : Path → List Path → Nat → Option WRes) (p : Path) (d : Nat)
    (hs : o.suppressErrors = false)
    (hwc : ∀ q vs cc, SuppRel fs (wc q vs cc) (wc' q vs cc))
    (hwc' : ∀ q vs cc r', wc' q vs cc = some r' → r'.err = none) :
    ∀ ents vis c, SuppRel fs (walkEntries fs o wc p d ents vis c)
      (walkEntries fs (tolerant o) wc' p d ents vis c) := by
  have habt : ∀ cc, abortedAt (tolerant o) cc = abortedAt o cc := fun _ => rfl
  have hrks : ∀ ep de cc, resolveKind fs (tolerant o) ep de cc =
      resolveKind fs o ep de cc := fun _ _ _ => rfl
  have htYD : (tolerant o).yieldDirectories = o.yieldDirectories := rfl
  have haf : ∀ nm, applyFilters nm (tolerant o) = applyFilters nm o :=
    fun _ => rfl
  have hsf : ¬o.suppressErrors = true := by simp [hs]
  intro ents
  induction ents with
  | nil =>
    intro vis c
    simp only [walkEntries]
    exact suppRel_same fs [] [] vis c
  | cons de rest ih =>
    intro vis c
    have hchild : ∀ (Y : List TimedEntry) (cy : Nat),
        SuppRel fs
          (match wc (joinPath p de.name) vis cy with
            | none => none
            | some ch =>
              match ch.err with
              | some e =>
                if o.suppressErrors then
                  some ⟨Y ++ ch.out, ch.opened, ch.visited, ch.clock, none⟩
                else
                  some ⟨Y ++ ch.out, ch.opened, ch.visited, ch.clock, some e⟩
              | none =>
                match walkEntries fs o wc p d rest ch.visited ch.clock with
                | none => none
                | some rr =>
                  some ⟨Y ++ ch.out ++ rr.out, ch.opened ++ rr.opened,
                    rr.visited, rr.clock, rr.err⟩)
          (match wc' (joinPath p de.name) vis cy with
            | none => none
            | some ch =>
              match ch.err with
              | some e =>
                if (tolerant o).suppressErrors then
                  some ⟨Y ++ ch.out, ch.opened, ch.visited, ch.clock, none⟩
                else
                  some ⟨Y ++ ch.out, ch.opened, ch.visited, ch.clock, some e⟩
              | none =>
                match walkEntries fs (tolerant o) wc' p d rest ch.visited
                    ch.clock with
                | none => none
                | some rr =>
                  some ⟨Y ++ ch.out ++ rr.out, ch.opened ++ rr.opened,
                    rr.visited, rr.clock, rr.err⟩) := by
      intro Y cy
      have hchrel := hwc (joinPath p de.name) vis cy
      cases hl : wc (joinPath p de.name) vis cy with
      | none => exact suppRel_none_left fs _
      | some ch =>
        cases hl' : wc' (joinPath p de.name) vis cy with
        | none => exact suppRel_none_right fs _
        | some ch' =>
          rw [hl, hl'] at hchrel
          obtain ⟨hch1, hch2⟩ := hchrel
          have hce' := hwc' (joinPath p de.name) vis cy ch' hl'
          try dsimp only
          cases hche : ch.err with
          | some e =>
            try dsimp only
            rw [if_neg hsf]
            rw [hce']
            try dsimp only
            obtain ⟨hraw, hpre⟩ := hch2 e hche
            cases hr' : walkEntries fs (tolerant o) wc' p d rest ch'.visited
                ch'.clock with
            | none => exact suppRel_none_right fs _
            | some rr' =>
              try dsimp only
              refine ⟨fun hh => (nomatch hh), fun e' he' => ?_⟩
              have he2 : some e = some e' := he'
              obtain rfl := Option.some.inj he2
              exact ⟨hraw, prefix_append_mid Y hpre rr'.out⟩
          | none =>
            have hcc : ch' = ch := hch1 hche
            subst hcc
            rw [hche]
            try dsimp only
            have hrest := ih ch'.visited ch'.clock
            cases hr : walkEntries fs o wc p d rest ch'.visited ch'.clock with
            | none => exact suppRel_none_left fs _
            | some rr =>
              cases hr' : walkEntries fs (tolerant o) wc' p d rest ch'.visited
                  ch'.clock with
              | none => exact suppRel_none_right fs _
              | some rr' =>
                rw [hr, hr'] at hrest
                obtain ⟨h1, h2⟩ := hrest
                try dsimp only
                refine ⟨fun hh => ?_, fun e' he' => ?_⟩
                · rw [h1 hh]
                · obtain ⟨hraw, hpre⟩ := h2 e' he'
                  exact ⟨hraw, prefix_append_congr (Y ++ ch'.out) hpre⟩
    simp only [walkEntries]
    rw [habt c]
    by_cases hab : abortedAt o c = true
    · rw [if_pos hab]
      try rw [if_pos hab]
      exact suppRel_same fs [] [] vis (c + 1)
    · rw [if_neg hab]
      try rw [if_neg hab]
      rw [hrks]
      rcases hrk : resolveKind fs o (joinPath p de.name) de (c + 1) with ⟨isDir, c2⟩
      try dsimp only
      rw [htYD, haf]
      by_cases hdir : isDir = true
      · rw [if_pos hdir]
        try rw [if_pos hdir]
        by_cases hyc : (o.yieldDirectories && applyFilters de.name o) = true
        · rw [if_pos hyc]
          try rw [if_pos hyc]
          rcases hfs : fetchStats fs o (joinPath p de.name) c2 with ⟨st | e0, c3⟩
          · rw [fetchStats_tolerant_inl fs o _ c2 st c3 hfs]
            try dsimp only
            exact hchild _ c3
          · rw [(fetchStats_tolerant_inr fs o _ c2 e0 c3 hfs).1]
            try dsimp only
            exact suppRel_fault_left fs vis c3 e0
              ⟨joinPath p de.name,
                Or.inr (Or.inr (fetchStats_tolerant_inr fs o _ c2 e0 c3 hfs).2)⟩ _
        · rw [if_neg hyc]
          try rw [if_neg hyc]
          try dsimp only
          exact hchild [] c2
      · rw [if_neg hdir]
        try rw [if_neg hdir]
        by_cases hF : applyFilters de.name o = true
        · rw [if_pos hF]
          try rw [if_pos hF]
          rcases hfs : fetchStats fs o (joinPath p de.name) c2 with ⟨st | e0, c3⟩
          · rw [fetchStats_tolerant_inl fs o _ c2 st c3 hfs]
            try dsimp only
            have hrest := ih vis c3
            cases hr : walkEntries fs o wc p d rest vis c3 with
            | none => exact suppRel_none_left fs _
            | some rr =>
              cases hr' : walkEntries fs (tolerant o) wc' p d rest vis c3 with
              | none => exact suppRel_none_right fs _
              | some rr' =>
                rw [hr, hr'] at hrest
                obtain ⟨h1, h2⟩ := hrest
                try dsimp only
                refine ⟨fun hh => ?_, fun e' he' => ?_⟩
                · rw [h1 hh]
                · obtain ⟨hraw, hpre⟩ := h2 e' he'
                  exact ⟨hraw, prefix_cons_congr _ hpre⟩
          · rw [(fetchStats_tolerant_inr fs o _ c2 e0 c3 hfs).1]
            try dsimp only
            exact suppRel_fault_left fs vis c3 e0
              ⟨joinPath p de.name,
                Or.inr (Or.inr (fetchStats_tolerant_inr fs o _ c2 e0 c3 hfs).2)⟩ _
        · rw [if_neg hF]
          try rw [if_neg hF]
          exact ih vis c2

theorem walkGo_suppRel (fs : FS) (o : WalkOptions)
    (hs : o.suppressErrors = false) :
    ∀ fuel fuel' p d vis c,
      SuppRel fs (walkGo fs o fuel p d vis c)
        (walkGo fs (tolerant o) fuel' p d vis c) := by
  have habt : ∀ cc, abortedAt (tolerant o) cc = abortedAt o cc := fun _ => rfl
  have hdep : ∀ dd, depthExceeded (tolerant o) dd = depthExceeded o dd :=
    fun _ => rfl
  have htFL : (tolerant o).followSymlinks = o.followSymlinks := rfl
  have htSup : (tolerant o).suppressErrors = true := rfl
  have htSort : (tolerant o).sort = o.sort := rfl
  have hColl : ∀ (l : List Dirent) cc,
      collectEntries (tolerant o) l cc = collectEntries o l cc :=
    fun l cc => collectEntries_tolerant o l cc
  intro fuel
  induction fuel with
  | zero =>
    intro fuel' p d vis c
    simp only [walkGo]
    exact suppRel_none_left fs _
  | succ fuel ih =>
    intro fuel' p d vis c
    cases fuel' with
    | zero =>
      simp only [walkGo]
      exact suppRel_none_right fs _
    | succ fuel' =>
      simp only [walkGo]
      rw [habt c]
      by_cases hab : abortedAt o c = true
      · rw [if_pos hab]
        try rw [if_pos hab]
        exact suppRel_same fs [] [] vis (c + 1)
      · rw [if_neg hab]
        try rw [if_neg hab]
        rw [hdep d]
        by_cases hd : depthExceeded o d = true
        · rw [if_pos hd]
          try rw [if_pos hd]
          exact suppRel_same fs [] [] vis (c + 1)
        · rw [if_neg hd]
          try rw [if_neg hd]
          rw [htFL]
          simp only [hColl, htSort]
          have hcont : ∀ vis' c',
              SuppRel fs
                (match fs.opendir p with
                  | .error e =>
                    if (!o.suppressErrors) = true then
                      some ⟨[], [], vis', c' + 1, some e⟩
                    else some ⟨[], [], vis', c' + 1, none⟩
                  | .ok listing =>
                    match walkEntries fs o
                        (fun q vs cc => walkGo fs o fuel q (d + 1) vs cc) p d
                        (match o.sort with
                          | SortSpec.null => (listing, c' + 1)
                          | s => (sortEntries (collectEntries o listing (c' + 1)).1 s,
                              (collectEntries o listing (c' + 1)).2)).1
                        vis'
                        (match o.sort with
                          | SortSpec.null => (listing, c' + 1)
                          | s => (sortEntries (collectEntries o listing (c' + 1)).1 s,
                              (collectEntries o listing (c' + 1)).2)).2 with
                    | none => none
                    | some r => some ⟨r.out, p :: r.opened, r.visited, r.clock, r.err⟩)
                (match fs.opendir p with
                  | .error e =>
                    if (!(tolerant o).suppressErrors) = true then
                      some ⟨[], [], vis', c' + 1, some e⟩
                    else some ⟨[], [], vis', c' + 1, none⟩
                  | .ok listing =>
                    match walkEntries fs (tolerant o)
                        (fun q vs cc => walkGo fs (tolerant o) fuel' q (d + 1) vs cc)
                        p d
                        (match o.sort with
                          | SortSpec.null => (listing, c' + 1)
                          | s => (sortEntries (collectEntries o listing (c' + 1)).1 s,
                              (collectEntries o listing (c' + 1)).2)).1
                        vis'
                        (match o.sort with
                          | SortSpec.null => (listing, c' + 1)
                          | s => (sortEntries (collectEntries o listing (c' + 1)).1 s,
                              (collectEntries o listing (c' + 1)).2)).2 with
                    | none => none
                    | some r => some ⟨r.out, p :: r.opened, r.visited, r.clock, r.err⟩) := by
            intro vis' c'
            cases hod : fs.opendir p with
            | error e =>
              dsimp only
              have hns : (!o.suppressErrors) = true := by simp [hs]
              rw [if_pos hns]
              rw [htSup]
              rw [if_neg (by simp : ¬((!true) = true))]
              exact suppRel_fault_left fs vis' (c' + 1) e ⟨p, Or.inr (Or.inl hod)⟩ _
            | ok listing =>
              dsimp only
              have hrel : ∀ ents vvv ccc,
                  SuppRel fs
                    (match walkEntries fs o
                        (fun q vs cc => walkGo fs o fuel q (d + 1) vs cc)
                        p d ents vvv ccc with
                      | none => none
                      | some r => some ⟨r.out, p :: r.opened, r.visited, r.clock, r.err⟩)
                    (match walkEntries fs (tolerant o)
                        (fun q vs cc => walkGo fs (tolerant o) fuel' q (d + 1) vs cc)
                        p d ents vvv ccc with
                      | none => none
                      | some r => some ⟨r.out, p :: r.opened, r.visited, r.clock, r.err⟩) := by
                intro ents vvv ccc
                have h1 := walkEntries_suppRel fs o
                  (fun q vs cc => walkGo fs o fuel q (d + 1) vs cc)
                  (fun q vs cc => walkGo fs (tolerant o) fuel' q (d + 1) vs cc)
                  p d hs (fun q vs cc => ih fuel' q (d + 1) vs cc)
                  (fun q vs cc r' hq =>
                    (walkGo_inv fs (tolerant o) fuel' q (d + 1) vs cc r' hq).suppress_err
                      htSup)
                  ents vvv ccc
                cases h2 : walkEntries fs o
                    (fun q vs cc => walkGo fs o fuel q (d + 1) vs cc) p d ents vvv ccc with
                | none => exact suppRel_none_left fs _
                | some r =>
                  cases h3 : walkEntries fs (tolerant o)
                      (fun q vs cc => walkGo fs (tolerant o) fuel' q (d + 1) vs cc)
                      p d ents vvv ccc with
                  | none => exact suppRel_none_right fs _
                  | some r' =>
                    rw [h2, h3] at h1
                    obtain ⟨h1a, h1b⟩ := h1
                    try dsimp only
                    refine ⟨fun hh => ?_, fun e' he' => ?_⟩
                    · rw [h1a hh]
                    · obtain ⟨hraw, hpre⟩ := h1b e' he'
                      exact ⟨hraw, hpre⟩
              cases hso : o.sort with
              | null => exact hrel _ _ _
              | asc => exact hrel _ _ _
              | desc => exact hrel _ _ _
              | custom le => exact hrel _ _ _
          by_cases hfl : o.followSymlinks = true
          · rw [if_pos hfl]
            try rw [if_pos hfl]
            cases hrp : fs.realpath p with
            | ok rp =>
              dsimp only
              by_cases hmem : rp ∈ vis
              · rw [if_pos hmem]
                try rw [if_pos hmem]
                exact suppRel_same fs [] [] vis (c + 1 + 1)
              · rw [if_neg hmem]
                try rw [if_neg hmem]
                dsimp only
                exact hcont (rp :: vis) (c + 1 + 1)
            | error e =>
              dsimp only
              by_cases hmem : p ∈ vis
              · rw [if_pos hmem]
                try rw [if_pos hmem]
                exact suppRel_same fs [] [] vis (c + 1 + 1)
              · rw [if_neg hmem]
                try rw [if_neg hmem]
                have hns : (!o.suppressErrors) = true := by simp [hs]
                rw [if_pos hns]
                rw [htSup]
                rw [if_neg (by simp : ¬((!true) = true))]
                dsimp only
                exact suppRel_fault_left fs (p :: vis) (c + 1 + 1) e
                  ⟨p, Or.inl hrp⟩ _
          · rw [if_neg hfl]
            try rw [if_neg hfl]
            dsimp only
            exact hcont vis (c + 1)

/-! ### Pre-order structure of the output (support for the ordering claim) -/

/-- Two prefixes of the same list with equal lengths coincide. -/
theorem prefix_eq_of_length_eq {α} {l₁ l₂ l₃ : List α} (h1 : l₁ <+: l₃)
    (h2 : l₂ <+: l₃) (h : l₁.length = l₂.length) : l₁ = l₂ :=
  (List.prefix_of_prefix_length_le h1 h2 (le_of_eq h)).eq_of_length h

theorem ancestorsFirst_nil : AncestorsFirst [] := List.Pairwise.nil

theorem subtreeContiguous_nil : SubtreeContiguous [] := by
  intro q
  exact ⟨[], [], [], by simp, by simp, by simp, by simp⟩

theorem subtreeContiguous_append_left (L M : List TimedEntry) (q : Path)
    (hM : ∀ te ∈ M, ¬q <+: te.entry.path)
    (h : ∃ A B C, L = A ++ B ++ C ∧ (∀ te ∈ A, ¬q <+: te.entry.path) ∧
      (∀ te ∈ B, q <+: te.entry.path) ∧ (∀ te ∈ C, ¬q <+: te.entry.path)) :
    ∃ A B C, L ++ M = A ++ B ++ C ∧ (∀ te ∈ A, ¬q <+: te.entry.path) ∧
      (∀ te ∈ B, q <+: te.entry.path) ∧ (∀ te ∈ C, ¬q <+: te.entry.path) := by
  obtain ⟨A, B, C, hL, hA, hB, hC⟩ := h
  refine ⟨A, B, C ++ M, by rw [hL]; simp, hA, hB, ?_⟩
  intro te hte
  rcases List.mem_append.mp hte with hte | hte
  · exact hC te hte
  · exact hM te hte

theorem subtreeContiguous_append_right (L M : List TimedEntry) (q : Path)
    (hL : ∀ te ∈ L, ¬q <+: te.entry.path)
    (h : ∃ A B C, M = A ++ B ++ C ∧ (∀ te ∈ A, ¬q <+: te.entry.path) ∧
      (∀ te ∈ B, q <+: te.entry.path) ∧ (∀ te ∈ C, ¬q <+: te.entry.path)) :
    ∃ A B C, L ++ M = A ++ B ++ C ∧ (∀ te ∈ A, ¬q <+: te.entry.path) ∧
      (∀ te ∈ B, q <+: te.entry.path) ∧ (∀ te ∈ C, ¬q <+: te.entry.path) := by
  obtain ⟨A, B, C, hM, hA, hB, hC⟩ := h
  refine ⟨L ++ A, B, C, by rw [hM]; simp, ?_, hB, hC⟩
  intro te hte
  rcases List.mem_append.mp hte with hte | hte
  · exact hL te hte
  · exact hA te hte

theorem subtreeContiguous_all (L : List TimedEntry) (q : Path)
    (hall : ∀ te ∈ L, q <+: te.entry.path) :
    ∃ A B C, L = A ++ B ++ C ∧ (∀ te ∈ A, ¬q <+: te.entry.path) ∧
      (∀ te ∈ B, q <+: te.entry.path) ∧ (∀ te ∈ C, ¬q <+: te.entry.path) :=
  ⟨[], L, [], by simp, by simp, hall, by simp⟩

/-- Contiguity for a single entry. -/
theorem subtreeContiguous_single (te : TimedEntry) : SubtreeContiguous [te] := by
  intro q
  by_cases hq : q <+: te.entry.path
  · exact ⟨[], [te], [], by simp, by simp, by simpa using hq, by simp⟩
  · exact ⟨[te], [], [], by simp, by simpa using hq, by simp, by simp⟩

/-- Combining the block of one sibling with the blocks of the later siblings:
the sibling names being distinct keeps every subtree inside one block. -/
theorem order_append_sibling (p : Path) (X Y : List TimedEntry) (nm : String)
    (others : List String)
    (hX : ∀ te ∈ X, joinPath p nm <+: te.entry.path)
    (hY : ∀ te ∈ Y, ∃ m ∈ others, joinPath p m <+: te.entry.path)
    (hnm : nm ∉ others)
    (haX : AncestorsFirst X) (haY : AncestorsFirst Y)
    (hsX : SubtreeContiguous X) (hsY : SubtreeContiguous Y) :
    AncestorsFirst (X ++ Y) ∧ SubtreeContiguous (X ++ Y) := by
  have hkey : ∀ te1 ∈ X, ∀ te2 ∈ Y, ∀ q : Path, q <+: te1.entry.path →
      q <+: te2.entry.path → q <+: p := by
    intro te1 h1 te2 h2 q hq1 hq2
    obtain ⟨m, hm, hpm⟩ := hY te2 h2
    by_cases hlen : q.length ≤ p.length
    · exact List.prefix_of_prefix_length_le hq1
        ((List.prefix_append p [nm]).trans (hX te1 h1)) hlen
    · have hjp1 : joinPath p nm <+: q :=
        List.prefix_of_prefix_length_le (hX te1 h1) hq1
          (by simp [joinPath]; omega)
      have hjp2 : joinPath p m <+: q :=
        List.prefix_of_prefix_length_le hpm hq2 (by simp [joinPath]; omega)
      have hje := prefix_eq_of_length_eq hjp1 hjp2 (by simp [joinPath])
      have : nm = m := by
        have := List.append_cancel_left hje
        simpa using this
      exact absurd (this ▸ hm) hnm
  constructor
  · rw [AncestorsFirst, List.pairwise_append]
    refine ⟨haX, haY, ?_⟩
    intro x hx y hy
    rintro ⟨hpre, hlt⟩
    have hqp := hkey x hx y hy y.entry.path hpre List.prefix_rfl
    obtain ⟨m, hm, hpm⟩ := hY y hy
    have hl1 : p.length + 1 ≤ y.entry.path.length := by
      have := hpm.length_le
      simp [joinPath] at this
      omega
    have hl2 : y.entry.path.length ≤ p.length := hqp.length_le
    omega
  · intro q
    by_cases hqX : ∃ te ∈ X, q <+: te.entry.path
    · by_cases hqY : ∃ te ∈ Y, q <+: te.entry.path
      · obtain ⟨t1, h1, hq1⟩ := hqX
        obtain ⟨t2, h2, hq2⟩ := hqY
        have hqp := hkey t1 h1 t2 h2 q hq1 hq2
        refine subtreeContiguous_all _ _ ?_
        intro te hte
        rcases List.mem_append.mp hte with hte | hte
        · exact hqp.trans ((List.prefix_append p [nm]).trans (hX te hte))
        · obtain ⟨m, hm, hpm⟩ := hY te hte
          exact hqp.trans ((List.prefix_append p [m]).trans hpm)
      · push_neg at hqY
        exact subtreeContiguous_append_left X Y q hqY (hsX q)
    · push_neg at hqX
      exact subtreeContiguous_append_right X Y q hqX (hsY q)

/-- The block of a single directory sibling: its own (optional) entry
followed by the output of its subtree. -/
theorem order_block (p : Path) (nm : String) (Y0 Ch : List TimedEntry)
    (hY0 : ∀ te ∈ Y0, te.entry.path = joinPath p nm)
    (hY0len : Y0.length ≤ 1)
    (hCh : ∀ te ∈ Ch, joinPath p nm <+: te.entry.path ∧
      (joinPath p nm).length < te.entry.path.length)
    (haCh : AncestorsFirst Ch) (hsCh : SubtreeContiguous Ch) :
    (∀ te ∈ Y0 ++ Ch, joinPath p nm <+: te.entry.path) ∧
    AncestorsFirst (Y0 ++ Ch) ∧ SubtreeContiguous (Y0 ++ Ch) := by
  refine ⟨?_, ?_, ?_⟩
  · intro te hte
    rcases List.mem_append.mp hte with hte | hte
    · exact (hY0 te hte).symm ▸ List.prefix_rfl
    · exact (hCh te hte).1
  · rw [AncestorsFirst, List.pairwise_append]
    refine ⟨?_, haCh, ?_⟩
    · match Y0, hY0len with
      | [], _ => exact List.Pairwise.nil
      | [a], _ => exact List.pairwise_singleton _ a
    · intro x hx y hy
      rintro ⟨hpre, hlt⟩
      have hx' := hY0 x hx
      have hy' := hCh y hy
      rw [hx'] at hlt
      omega
  · intro q
    by_cases hqY0 : ∃ te ∈ Y0, q <+: te.entry.path
    · obtain ⟨t0, ht0, hqt0⟩ := hqY0
      have hqjp : q <+: joinPath p nm := (hY0 t0 ht0) ▸ hqt0
      refine subtreeContiguous_all _ _ ?_
      intro te hte
      rcases List.mem_append.mp hte with hte | hte
      · exact (hY0 te hte).symm ▸ hqjp
      · exact hqjp.trans (hCh te hte).1
    · push_neg at hqY0
      exact subtreeContiguous_append_right Y0 Ch q hqY0 (hsCh q)

/-- Permutation property of the sorting step. -/
theorem sortEntries_perm (l : List Dirent) (s : SortSpec) :
    (sortEntries l s).Perm l := by
  cases s with
  | null => exact List.Perm.refl l
  | asc => exact List.mergeSort_perm l _
  | desc => exact List.mergeSort_perm l _
  | custom le => exact List.mergeSort_perm l _

theorem walkEntries_order (fs : FS) (o : WalkOptions)
    (wc : Path → List Path → Nat → Option WRes) (p : Path) (d : Nat)
    (hwc : ∀ q vs cc rc, wc q vs cc = some rc →
      (∀ te ∈ rc.out, q <+: te.entry.path ∧ q.length < te.entry.path.length) ∧
      AncestorsFirst rc.out ∧ SubtreeContiguous rc.out) :
    ∀ ents vis c r, (ents.map Dirent.name).Nodup →
      walkEntries fs o wc p d ents vis c = some r →
      (∀ te ∈ r.out, ∃ de ∈ ents, joinPath p de.name <+: te.entry.path) ∧
      AncestorsFirst r.out ∧ SubtreeContiguous r.out := by
  intro ents
  induction ents with
  | nil =>
    intro vis c r hnd h
    simp only [walkEntries, Option.some.injEq] at h
    subst h
    exact ⟨by simp, ancestorsFirst_nil, subtreeContiguous_nil⟩
  | cons de rest ih =>
    intro vis c r hnd h
    have hndr : (rest.map Dirent.name).Nodup := by
      simp only [List.map_cons, List.nodup_cons] at hnd
      exact hnd.2
    have hdern : de.name ∉ rest.map Dirent.name := by
      simp only [List.map_cons, List.nodup_cons] at hnd
      exact hnd.1
    simp only [walkEntries] at h
    split at h
    · simp only [Option.some.injEq] at h
      subst h
      exact ⟨by simp, ancestorsFirst_nil, subtreeContiguous_nil⟩
    · rename_i hab
      rcases hrk : resolveKind fs o (joinPath p de.name) de (c + 1) with ⟨isDir, c2⟩
      rw [hrk] at h
      dsimp only at h
      split at h
      · -- directory case
        split at h
        · -- stats fetch threw: empty output
          rename_i ec hsum
          simp only [Option.some.injEq] at h
          subst h
          exact ⟨by simp, ancestorsFirst_nil, subtreeContiguous_nil⟩
        · rename_i yc hsum
          have hyc1 : ∀ te ∈ yc.1, te.entry.path = joinPath p de.name := by
            split at hsum
            · rcases hfs : fetchStats fs o (joinPath p de.name) c2 with ⟨sv, c3⟩
              rw [hfs] at hsum
              cases sv with
              | inl st =>
                simp only [Sum.inl.injEq] at hsum
                rw [← hsum]
                simp
              | inr e => simp at hsum
            · simp only [Sum.inl.injEq] at hsum
              rw [← hsum]
              simp
          have hyclen : yc.1.length ≤ 1 := by
            split at hsum
            · rcases hfs : fetchStats fs o (joinPath p de.name) c2 with ⟨sv, c3⟩
              rw [hfs] at hsum
              cases sv with
              | inl st =>
                simp only [Sum.inl.injEq] at hsum
                rw [← hsum]
                simp
              | inr e => simp at hsum
            · simp only [Sum.inl.injEq] at hsum
              rw [← hsum]
              simp
          cases hch : wc (joinPath p de.name) vis yc.2 with
          | none => rw [hch] at h; exact absurd h (by simp)
          | some ch =>
            rw [hch] at h
            dsimp only at h
            obtain ⟨hchp, hcha, hchs⟩ := hwc _ _ _ _ hch
            have hblock := order_block p de.name yc.1 ch.out hyc1 hyclen hchp hcha hchs
            cases hce : ch.err with
            | some e =>
              rw [hce] at h
              dsimp only at h
              have hfin : ∀ er : Option SysError,
                  r = ⟨yc.1 ++ ch.out, ch.opened, ch.visited, ch.clock, er⟩ →
                  (∀ te ∈ r.out, ∃ e2 ∈ de :: rest,
                    joinPath p e2.name <+: te.entry.path) ∧
                  AncestorsFirst r.out ∧ SubtreeContiguous r.out := by
                intro er hr
                subst hr
                refine ⟨?_, hblock.2.1, hblock.2.2⟩
                intro te hte
                exact ⟨de, List.mem_cons_self de rest, hblock.1 te hte⟩
              split at h
              · simp only [Option.some.injEq] at h
                exact hfin none h.symm
              · simp only [Option.some.injEq] at h
                exact hfin (some e) h.symm
            | none =>
              rw [hce] at h
              dsimp only at h
              cases hrr : walkEntries fs o wc p d rest ch.visited ch.clock with
              | none => rw [hrr] at h; exact absurd h (by simp)
              | some rr =>
                rw [hrr] at h
                simp only [Option.some.injEq] at h
                subst h
                obtain ⟨hrp, hra, hrs⟩ := ih ch.visited ch.clock rr hndr hrr
                have hYmem : ∀ te ∈ rr.out, ∃ m ∈ rest.map Dirent.name,
                    joinPath p m <+: te.entry.path := by
                  intro te hte
                  obtain ⟨e2, he2, hpre⟩ := hrp te hte
                  exact ⟨e2.name, List.mem_map_of_mem _ he2, hpre⟩
                have hcomb := order_append_sibling p (yc.1 ++ ch.out) rr.out de.name
                  (rest.map Dirent.name) hblock.1 hYmem hdern
                  hblock.2.1 hra hblock.2.2 hrs
                refine ⟨?_, ?_, ?_⟩
                · intro te hte
                  dsimp only at hte
                  rcases List.mem_append.mp hte with hte | hte
                  · exact ⟨de, List.mem_cons_self de rest, hblock.1 te hte⟩
                  · obtain ⟨e2, he2, hpre⟩ := hrp te hte
                    exact ⟨e2, List.mem_cons_of_mem _ he2, hpre⟩
                · exact hcomb.1
                · exact hcomb.2
      · -- file case
        split at h
        · rename_i hinc
          rcases hfs : fetchStats fs o (joinPath p de.name) c2 with ⟨sv, c3⟩
          rw [hfs] at h
          cases sv with
          | inr e =>
            dsimp only at h
            simp only [Option.some.injEq] at h
            subst h
            exact ⟨by simp, ancestorsFirst_nil, subtreeContiguous_nil⟩
          | inl st =>
            dsimp only at h
            cases hrr : walkEntries fs o wc p d rest vis c3 with
            | none => rw [hrr] at h; exact absurd h (by simp)
            | some rr =>
              rw [hrr] at h
              simp only [Option.some.injEq] at h
              subst h
              obtain ⟨hrp, hra, hrs⟩ := ih vis c3 rr hndr hrr
              have hYmem : ∀ te ∈ rr.out, ∃ m ∈ rest.map Dirent.name,
                  joinPath p m <+: te.entry.path := by
                intro te hte
                obtain ⟨e2, he2, hpre⟩ := hrp te hte
                exact ⟨e2.name, List.mem_map_of_mem _ he2, hpre⟩
              have hX : ∀ te ∈ [(⟨⟨joinPath p de.name, de, d, st⟩, c3⟩ : TimedEntry)],
                  joinPath p de.name <+: te.entry.path := by
                simp
              have hcomb := order_append_sibling p
                [(⟨⟨joinPath p de.name, de, d, st⟩, c3⟩ : TimedEntry)] rr.out de.name
                (rest.map Dirent.name) hX hYmem hdern
                (List.pairwise_singleton _ _) hra (subtreeContiguous_single _) hrs
              refine ⟨?_, ?_, ?_⟩
              · intro te hte
                dsimp only at hte
                rcases List.mem_cons.mp hte with hte | hte
                · subst hte
                  exact ⟨de, List.mem_cons_self de rest, by simp⟩
                · obtain ⟨e2, he2, hpre⟩ := hrp te hte
                  exact ⟨e2, List.mem_cons_of_mem _ he2, hpre⟩
              · simpa using hcomb.1
              · simpa using hcomb.2
        · rename_i hinc
          obtain ⟨hrp, hra, hrs⟩ := ih vis c2 r hndr h
          refine ⟨?_, hra, hrs⟩
          intro te hte
          obtain ⟨e2, he2, hpre⟩ := hrp te hte
          exact ⟨e2, List.mem_cons_of_mem _ he2, hpre⟩

theorem walkGo_order (fs : FS) (o : WalkOptions) (hnd : FSNodup fs) :
    ∀ fuel p d vis c r, walkGo fs o fuel p d vis c = some r →
      (∀ te ∈ r.out, p <+: te.entry.path ∧ p.length < te.entry.path.length) ∧
      AncestorsFirst r.out ∧ SubtreeContiguous r.out := by
  intro fuel
  induction fuel with
  | zero =>
    intro p d vis c r h
    simp [walkGo] at h
  | succ fuel ih =>
    intro p d vis c r h
    simp only [walkGo] at h
    split at h
    · simp only [Option.some.injEq] at h
      subst h
      exact ⟨by simp, ancestorsFirst_nil, subtreeContiguous_nil⟩
    · split at h
      · simp only [Option.some.injEq] at h
        subst h
        exact ⟨by simp, ancestorsFirst_nil, subtreeContiguous_nil⟩
      · split at h
        · rename_i res hsym
          simp only [Option.some.injEq] at h
          subst h
          have hout : res.out = [] := by
            split at hsym
            · split at hsym
              · split at hsym
                · simp only [Sum.inr.injEq] at hsym
                  rw [← hsym]
                · simp at hsym
              · split at hsym
                · simp only [Sum.inr.injEq] at hsym
                  rw [← hsym]
                · split at hsym
                  · simp only [Sum.inr.injEq] at hsym
                    rw [← hsym]
                  · simp at hsym
            · simp at hsym
          rw [hout]
          exact ⟨by simp, ancestorsFirst_nil, subtreeContiguous_nil⟩
        · rename_i vc hsym
          cases hod : fs.opendir p with
          | error e =>
            rw [hod] at h
            dsimp only at h
            split at h
            · simp only [Option.some.injEq] at h
              subst h
              exact ⟨by simp, ancestorsFirst_nil, subtreeContiguous_nil⟩
            · simp only [Option.some.injEq] at h
              subst h
              exact ⟨by simp, ancestorsFirst_nil, subtreeContiguous_nil⟩
          | ok listing =>
            rw [hod] at h
            dsimp only at h
            rcases hent : (match o.sort with
              | SortSpec.null => (listing, vc.2 + 1)
              | s =>
                ((sortEntries (collectEntries o listing (vc.2 + 1)).1 s),
                  (collectEntries o listing (vc.2 + 1)).2)) with ⟨ents, c3⟩
            rw [hent] at h
            have hentnd : (ents.map Dirent.name).Nodup := by
              have hld : (listing.map Dirent.name).Nodup := hnd p listing hod
              split at hent
              · simp only [Prod.mk.injEq] at hent
                rw [← hent.1]
                exact hld
              · rename_i s hne
                simp only [Prod.mk.injEq] at hent
                rw [← hent.1]
                have hpre : (collectEntries o listing (vc.2 + 1)).1 <+: listing :=
                  collectEntries_prefix o listing (vc.2 + 1)
                have hsub : ((collectEntries o listing (vc.2 + 1)).1.map
                    Dirent.name).Sublist (listing.map Dirent.name) :=
                  (hpre.sublist).map Dirent.name
                have hcnd := hsub.nodup hld
                have hperm := (sortEntries_perm (collectEntries o listing (vc.2 + 1)).1 o.sort).map
                  Dirent.name
                exact hperm.nodup_iff.mpr hcnd
            dsimp only at h
            cases hcall : walkEntries fs o
                (fun q vs cc => walkGo fs o fuel q (d + 1) vs cc) p d ents vc.1 c3 with
            | none => rw [hcall] at h; exact absurd h (by simp)
            | some rw2 =>
              rw [hcall] at h
              simp only [Option.some.injEq] at h
              subst h
              have hEO := walkEntries_order fs o _ p d
                (fun q vs cc rc hq => ih q (d + 1) vs cc rc hq) ents vc.1 c3 rw2
                hentnd hcall
              refine ⟨?_, hEO.2.1, hEO.2.2⟩
              intro te hte
              dsimp only at hte
              obtain ⟨de, _, hpre⟩ := hEO.1 te hte
              constructor
              · exact (List.prefix_append p [de.name]).trans hpre
              · have := hpre.length_le
                simp [joinPath] at this
                omega

/-- A frame at depth 1 under a zero depth limit prunes immediately after its
abort poll. -/
theorem walkGo_depthZero_child (fs : FS) (q : Path) (vs : List Path) (cc : Nat) :
    walkGo fs depthZeroOptions 1 q 1 vs cc = some ⟨[], [], vs, cc + 1, none⟩ := by
  have h1 : abortedAt depthZeroOptions cc = false := rfl
  have h2 : depthExceeded depthZeroOptions 1 = true := by
    simp [depthExceeded, depthZeroOptions, defaultWalkOptions]
  simp only [walkGo, h1, Bool.false_eq_true, if_false, h2, if_true]

/-- Under the zero depth limit, the sibling loop yields exactly the plain
files of the listing, in order, at depth 0, and recursion into
subdirectories produces nothing. -/
theorem walkEntries_depthZero (fs : FS) (p : Path) :
    ∀ (l : List Dirent) (vis : List Path) (c : Nat), ∃ out cfin,
      walkEntries fs depthZeroOptions
        (fun q vs cc => walkGo fs depthZeroOptions 1 q 1 vs cc) p 0 l vis c =
        some ⟨out, [], vis, cfin, none⟩ ∧
      out.map (fun te => te.entry) =
        (l.filter (fun de => !de.isDir)).map
          (fun de => ⟨joinPath p de.name, de, 0, none⟩) := by
  intro l
  have h1 : ∀ cc, abortedAt depthZeroOptions cc = false := fun _ => rfl
  have h2 : ∀ ep de cc, resolveKind fs depthZeroOptions ep de cc = (de.isDir, cc) := by
    intro ep de cc
    simp [resolveKind, depthZeroOptions, defaultWalkOptions]
  have h3 : ∀ nm, applyFilters nm depthZeroOptions = true := fun _ => rfl
  have h4 : ∀ ep cc, fetchStats fs depthZeroOptions ep cc = (.inl none, cc) := fun _ _ => rfl
  induction l with
  | nil =>
    intro vis c
    exact ⟨[], c, by simp [walkEntries], by simp⟩
  | cons de rest ih =>
    intro vis c
    cases hdir : de.isDir with
    | true =>
      obtain ⟨out, cfin, hrec, hmap⟩ := ih vis (c + 1 + 1)
      refine ⟨out, cfin, ?_, ?_⟩
      · simp only [walkEntries, h1, Bool.false_eq_true, if_false, h2, hdir]
        try dsimp only
        simp only [if_true]
        have hyneg : ¬(depthZeroOptions.yieldDirectories &&
            applyFilters de.name depthZeroOptions) = true := by
          simp [depthZeroOptions, defaultWalkOptions]
        rw [if_neg hyneg]
        try dsimp only
        rw [walkGo_depthZero_child]
        try dsimp only
        rw [hrec]
        simp
      · rw [hmap]
        simp [List.filter_cons, hdir]
    | false =>
      obtain ⟨out, cfin, hrec, hmap⟩ := ih vis (c + 1)
      refine ⟨⟨⟨joinPath p de.name, de, 0, none⟩, c + 1⟩ :: out, cfin, ?_, ?_⟩
      · simp only [walkEntries, h1, Bool.false_eq_true, if_false, h2, hdir]
        try dsimp only
        rw [if_pos (h3 de.name), h4]
        try dsimp only
        rw [hrec]
      · simp only [List.map_cons, hmap, List.filter_cons, hdir]
        simp

/-- Entering the link a second time: its canonical identity is already
registered, so the frame returns before opening anything. -/
theorem cycle_link_child (A : List String) (vis : List Path) (cc : Nat)
    (hmem : ([] : Path) ∈ vis) :
    walkGo (cycleFS A) followOptions 1 ["link"] 1 vis cc =
      some ⟨[], [], vis, cc + 1 + 1, none⟩ := by
  have h1 : abortedAt followOptions cc = false := rfl
  have h2 : depthExceeded followOptions 1 = false := rfl
  have h3 : (cycleFS A).realpath ["link"] = .ok [] := by
    simp [cycleFS]
  have hfs : followOptions.followSymlinks = true := by rfl
  simp only [walkGo, h1, Bool.false_eq_true, if_false, h2]
  rw [if_pos hfs, h3]
  try dsimp only
  rw [if_pos hmem]

/-- The sibling loop of the cyclic root: every plain file is yielded once, in
listing order, and the final link entry recurses into an already-registered
identity, producing nothing. -/
theorem cycle_entries (A : List String) :
    ∀ (files : List String) (vis : List Path) (c : Nat), ([] : Path) ∈ vis →
      ∃ out cfin, walkEntries (cycleFS A) followOptions
        (fun q vs cc => walkGo (cycleFS A) followOptions 1 q 1 vs cc) [] 0
        ((files.map fileDirent) ++ [linkDirent]) vis c =
        some ⟨out, [], vis, cfin, none⟩ ∧
      out.map (fun te => te.entry.path) = files.map (fun n => [n]) := by
  have h1 : ∀ cc, abortedAt followOptions cc = false := fun _ => rfl
  have h3 : ∀ nm, applyFilters nm followOptions = true := fun _ => rfl
  have h4 : ∀ ep cc, fetchStats (cycleFS A) followOptions ep cc = (.inl none, cc) :=
    fun _ _ => rfl
  intro files
  induction files with
  | nil =>
    intro vis c hmem
    have hlname : linkDirent.name = "link" := rfl
    have h2 : resolveKind (cycleFS A) followOptions (joinPath [] "link")
        linkDirent (c + 1) = (true, c + 1 + 1) := by
      simp [resolveKind, linkDirent, followOptions, defaultWalkOptions, cycleFS, joinPath]
    refine ⟨[], c + 1 + 1 + 1 + 1, ?_, by simp⟩
    simp only [List.map_nil, List.nil_append, walkEntries, h1, Bool.false_eq_true,
      if_false, hlname, h2]
    try dsimp only
    simp only [eq_self_iff_true, if_true]
    have hyneg : ¬(followOptions.yieldDirectories &&
        applyFilters "link" followOptions) = true := by
      simp [followOptions, defaultWalkOptions]
    rw [if_neg hyneg]
    try dsimp only
    have hch := cycle_link_child A vis (c + 1 + 1) hmem
    rw [show joinPath [] "link" = ["link"] from rfl, hch]
    try dsimp only
    simp [walkEntries]
  | cons n rest ih =>
    intro vis c hmem
    obtain ⟨out, cfin, hrec, hmap⟩ := ih vis (c + 1) hmem
    have hfname : (fileDirent n).name = n := rfl
    have h2 : resolveKind (cycleFS A) followOptions (joinPath [] n)
        (fileDirent n) (c + 1) = (false, c + 1) := by
      simp [resolveKind, fileDirent, followOptions, defaultWalkOptions]
    refine ⟨⟨⟨joinPath [] n, fileDirent n, 0, none⟩, c + 1⟩ :: out, cfin, ?_, ?_⟩
    · simp only [List.map_cons, List.cons_append, walkEntries, h1,
        Bool.false_eq_true, if_false, hfname, h2]
      try dsimp only
      rw [if_pos (h3 n), h4]
      try dsimp only
      simp only [List.append_eq]
      rw [hrec]
    · simp only [List.map_cons, hmap]
      simp [joinPath]

/-- Splitting a list by a Boolean predicate preserves its length. -/
theorem length_filter_partition {α} (l : List α) (f : α → Bool) :
    (l.filter f).length + (l.filter (fun x => !f x)).length = l.length := by
  induction l with
  | nil => simp
  | cons a rest ih =>
    cases hf : f a <;> simp [List.filter_cons, hf] <;> omega

/-- Listings of the example tree never repeat a name. -/
theorem exTreeFS_nodup : FSNodup exTreeFS := by
  intro p l h
  simp only [exTreeFS] at h
  split at h
  · simp only [Except.ok.injEq] at h
    subst h
    decide
  · split at h
    · simp only [Except.ok.injEq] at h
      subst h
      decide
    · simp at h

/-- Claim C1 counterexample: under the default policy (suppressErrors on) a
NotFound failure -- ENOENT on opening `bad`, which `wrapError` classifies as
`PathNotFoundError`, not PermissionDenied -- is silently swallowed and the
traversal continues, yielding the later sibling `z.txt` with no surfaced
error; `shouldSuppressError` itself would refuse to suppress that kind, but
the walker never consults it. -/
theorem c1_counterexample :
    (walkRun exBrokenFS defaultWalkOptions [] 3).map
        (fun r => (r.out.map (fun te => te.entry.path), r.err)) =
      some ([["z.txt"]], none) ∧
    shouldSuppressError ⟨false, some "ENOENT"⟩ true = false ∧
    wrapErrorName (some "ENOENT") = "PathNotFoundError" := by
  refine ⟨by decide, rfl, rfl⟩

/-- Claim C1 (amended): under the default policy (suppressErrors = true) the
walker silently swallows every I/O failure of every kind -- a traversal
never surfaces any error -- and continues with the remaining siblings; the
`shouldSuppressError` helper, which the walker does not call, is the one
that suppresses exactly the PermissionDenied kind (a `PermissionError`
instance or the EACCES/EPERM codes) and only under an enabled policy. -/
theorem c1_amended_suppression :
    (∀ (fs : FS) (o : WalkOptions) (fuel : Nat) (p : Path) (d : Nat)
      (vis : List Path) (c : Nat) (r : WRes), o.suppressErrors = true →
      walkGo fs o fuel p d vis c = some r → r.err = none) ∧
    (∀ (err : JsError) (pol : Bool), shouldSuppressError err pol = true ↔
      (pol = true ∧ (err.isPermissionError = true ∨ err.code = some "EACCES" ∨
        err.code = some "EPERM"))) := by
  constructor
  · intro fs o fuel p d vis c r hs h
    exact (walkGo_inv fs o fuel p d vis c r h).suppress_err hs
  · intro err pol
    cases pol with
    | false => simp [shouldSuppressError]
    | true =>
      cases hip : err.isPermissionError with
      | true => simp [shouldSuppressError, hip]
      | false =>
        simp only [shouldSuppressError, hip, Bool.not_true, Bool.false_eq_true,
          if_false]
        by_cases hc : err.code = some "EACCES" ∨ err.code = some "EPERM"
        · simp [hc]
        · simp [hc]

/-- Claim C1 witness: the broken-subtree run surfaces no error, and the
helper does suppress a genuine permission error. -/
theorem c1_witness :
    ({ out := [⟨⟨["z.txt"], ⟨"z.txt", false, false⟩, 0, none⟩, 6⟩],
       opened := [[]], visited := [], clock := 6, err := none } : WRes).err = none ∧
    shouldSuppressError ⟨true, none⟩ true = true := by
  constructor
  · exact c1_amended_suppression.1 exBrokenFS defaultWalkOptions 3 [] 0 [] 0 _
      rfl (by decide)
  · exact (c1_amended_suppression.2 ⟨true, none⟩ true).mpr ⟨rfl, Or.inl rfl⟩

/-- Claim C2 (code bug in src/utils.js): the checked-in `match` of
`src/utils.js` silently treats the empty-string literal and every invalid
rule shape as match-all, while the `src/utils.ts` variant -- whose behavior
the repository's own tests (test/bug-fixes.test.ts) and BUG_FIX_REPORT
BUG-005/BUG-006 assert -- raises a TypeError for both. -/
theorem c2_match_empty_string :
    matchJs "file.js" (some (.str "")) = true ∧
    matchJs "file.js" (some .other) = true ∧
    matchTs "file.js" (some (.str "")) =
      .error "Pattern cannot be an empty string (use null for \"match all\")" ∧
    (matchTs "file.js" (some .other)).isOk = false :=
  ⟨rfl, rfl, rfl, rfl⟩

/-- Claim C3: with the default configuration and maxDepth = 0, a traversal
of any readable root yields exactly the plain files directly under the
root, in listing order and at depth 0, with no error: the depth-0 frame
runs and only recursion into depth 1 is pruned. -/
theorem c3_maxDepth_zero (fs : FS) (root : Path) (l : List Dirent)
    (h : fs.opendir root = .ok l) :
    (walkRun fs depthZeroOptions root 2).map
        (fun r => (r.out.map (fun te => te.entry), r.err)) =
      some ((l.filter (fun de => !de.isDir)).map
        (fun de => ⟨joinPath root de.name, de, 0, none⟩), none) := by
  obtain ⟨out, cfin, hrec, hmap⟩ := walkEntries_depthZero fs root l [] 2
  have hopen : walkRun fs depthZeroOptions root 2 =
      (match fs.opendir root with
      | .error e =>
        if (!depthZeroOptions.suppressErrors) = true then
          some ⟨[], [], [], 2, some e⟩
        else some ⟨[], [], [], 2, none⟩
      | .ok listing =>
        match walkEntries fs depthZeroOptions
            (fun q vs cc => walkGo fs depthZeroOptions 1 q 1 vs cc)
            root 0 listing [] 2 with
        | none => none
        | some r => some ⟨r.out, root :: r.opened, r.visited, r.clock, r.err⟩) := by
    rfl
  rw [hopen, h]
  try dsimp only
  rw [hrec]
  simp [hmap]

/-- Claim C3 witness: the example tree under maxDepth 0 yields exactly
alpha.txt and beta.txt. -/
theorem c3_witness :
    (walkRun exTreeFS depthZeroOptions [] 2).map
        (fun r => (r.out.map (fun te => te.entry), r.err)) =
      some ([⟨["alpha.txt"], ⟨"alpha.txt", false, false⟩, 0, none⟩,
        ⟨["beta.txt"], ⟨"beta.txt", false, false⟩, 0, none⟩], none) :=
  c3_maxDepth_zero exTreeFS []
    [⟨"alpha.txt", false, false⟩, ⟨"beta.txt", false, false⟩, ⟨"sub", true, false⟩]
    rfl

/-- Claim C8 counterexample: with suppression disabled and the cancellation
token already set when the traversal starts, the scan stops silently --
no entries and no error of any kind are surfaced, contradicting the claim
that a pre-set cancellation surfaces a typed domain error. -/
theorem c8_counterexample :
    walkRun exTreeFS presetAbortOptions [] 5 = some ⟨[], [], [], 1, none⟩ := by
  decide

/-- Claim C8 (amended): with suppression disabled, the first I/O fault stops
the scan: the surfaced error is the raw result of the failing `realpath`,
`opendir` or `stat` call (the walker rethrows `err` itself, never a
`wrapError`-typed value), and the strict run's output is an initial segment
of what the tolerant run -- the same options with suppression enabled --
yields, so nothing further is produced after the fault, wherever in the tree
it strikes; a cancellation token that is already set when the traversal
starts stops the scan silently, producing no entries and no error. -/
theorem c8_amended_first_fault :
    (∀ (fs : FS) (o : WalkOptions) (root : Path) (fuel fuel' : Nat)
        (r r' : WRes) (e : SysError),
        o.suppressErrors = false →
        walkRun fs o root fuel = some r →
        walkRun fs (tolerant o) root fuel' = some r' →
        r.err = some e →
        rawFault fs e ∧ r.out <+: r'.out) ∧
    (∀ (fs : FS) (o : WalkOptions) (root : Path) (fuel : Nat),
        o.abortAt = some 0 →
        walkGo fs o (fuel + 1) root 0 [] 0 = some ⟨[], [], [], 1, none⟩) := by
  constructor
  · intro fs o root fuel fuel' r r' e hs hr hr' he
    have hrel := walkGo_suppRel fs o hs fuel fuel' root 0 [] 0
    unfold walkRun at hr hr'
    rw [hr, hr'] at hrel
    exact hrel.2 e he
  · intro fs o root fuel ha
    have hab : abortedAt o 0 = true := by simp [abortedAt, ha]
    simp only [walkGo, hab, if_true]

/-- Claim C8 witness: on the example tree whose subdirectory `bad` is
unreadable, the strict run yields `a.txt`, surfaces the raw EACCES error of
the failing `opendir` mid-scan, and never yields the later sibling `z.txt`:
its output is an initial segment of the tolerant run's two entries; and a
pre-set token gives the silent empty run. -/
theorem c8_witness :
    (rawFault exMidFaultFS ⟨"EACCES", ["bad"]⟩ ∧
      ([⟨⟨["a.txt"], ⟨"a.txt", false, false⟩, 0, none⟩, 3⟩] : List TimedEntry) <+:
        [⟨⟨["a.txt"], ⟨"a.txt", false, false⟩, 0, none⟩, 3⟩,
          ⟨⟨["z.txt"], ⟨"z.txt", false, false⟩, 0, none⟩, 7⟩]) ∧
    walkGo exTreeFS abortAtZeroOptions (4 + 1) [] 0 [] 0 =
      some ⟨[], [], [], 1, none⟩ := by
  constructor
  · exact c8_amended_first_fault.1 exMidFaultFS noSuppressOptions [] 3 3
      ⟨[⟨⟨["a.txt"], ⟨"a.txt", false, false⟩, 0, none⟩, 3⟩], [[]], [], 6,
        some ⟨"EACCES", ["bad"]⟩⟩
      ⟨[⟨⟨["a.txt"], ⟨"a.txt", false, false⟩, 0, none⟩, 3⟩,
        ⟨⟨["z.txt"], ⟨"z.txt", false, false⟩, 0, none⟩, 7⟩], [[]], [], 7, none⟩
      ⟨"EACCES", ["bad"]⟩ rfl (by decide) (by decide) rfl
  · exact c8_amended_first_fault.2 exTreeFS abortAtZeroOptions [] 4 rfl

/-- Claim C10: the root itself is never yielded; every entry lies strictly
beneath the root, and its depth counts the levels below the root: an entry
directly under the root has depth 0, and the path length exceeds the root
length by exactly depth + 1. -/
theorem c10_root_never_yielded (fs : FS) (o : WalkOptions) (root : Path)
    (fuel : Nat) (r : WRes) (h : walkRun fs o root fuel = some r) :
    ∀ te ∈ r.out, te.entry.path ≠ root ∧ root <+: te.entry.path ∧
      te.entry.path.length = root.length + 1 + te.entry.depth := by
  intro te hte
  obtain ⟨hpre, hd, hlen⟩ := (walkGo_inv fs o fuel root 0 [] 0 r h).paths te hte
  refine ⟨?_, hpre, by omega⟩
  intro hcon
  rw [hcon] at hlen
  omega

/-- Claim C10 witness: instantiated on the nested file of the example
tree. -/
theorem c10_witness :
    (["sub", "gamma.txt"] : Path) ≠ [] ∧
    ([] : Path) <+: ["sub", "gamma.txt"] ∧
    (["sub", "gamma.txt"] : Path).length = ([] : Path).length + 1 + 1 := by
  exact c10_root_never_yielded exTreeFS defaultWalkOptions [] 4
    ⟨[⟨⟨["alpha.txt"], ⟨"alpha.txt", false, false⟩, 0, none⟩, 3⟩,
      ⟨⟨["beta.txt"], ⟨"beta.txt", false, false⟩, 0, none⟩, 4⟩,
      ⟨⟨["sub", "gamma.txt"], ⟨"gamma.txt", false, false⟩, 1, none⟩, 8⟩],
      [[], ["sub"]], [], 8, none⟩
    (by decide)
    ⟨⟨["sub", "gamma.txt"], ⟨"gamma.txt", false, false⟩, 1, none⟩, 8⟩
    (by decide)

/-- Claim C4: on the cyclic tree (root files plus `A/link -> A`) with
followSymlinks and suppressErrors on, the traversal terminates (fuel 2
suffices, independent of the file count) and yields each real file exactly
once, in listing order; moreover, whenever canonicalization of a frame
fails, the literal path is registered in the visited set. -/
theorem count_brackets_one (files : List String) (hnd : files.Nodup)
    (f : String) (hf : f ∈ files) :
    (files.map (fun n => ([n] : Path))).countP (fun q => decide (q = [f])) = 1 := by
  induction files with
  | nil => cases hf
  | cons a rest ih =>
    have hnd2 := (List.nodup_cons.mp hnd).2
    have hna := (List.nodup_cons.mp hnd).1
    simp only [List.map_cons, List.countP_cons]
    rcases List.mem_cons.mp hf with rfl | hf2
    · have hz : (rest.map (fun n => ([n] : Path))).countP
          (fun q => decide (q = [f])) = 0 := by
        rw [List.countP_eq_zero]
        intro q hq
        obtain ⟨m, hm, hqe⟩ := List.mem_map.mp hq
        subst hqe
        simp only [decide_eq_true_eq, List.cons.injEq, and_true]
        intro hc
        exact hna (hc ▸ hm)
      simp [hz]
    · have ha : ¬(([a] : Path) = [f]) := by
        simp only [List.cons.injEq, and_true]
        intro hc
        exact hna (hc ▸ hf2)
      simp only [decide_eq_true_eq, ha, if_false]
      simpa using ih hnd2 hf2

theorem c4_symlink_cycle (files : List String) (hnd : files.Nodup)
    (_hlk : "link" ∉ files) :
    ((walkRun (cycleFS files) followOptions [] 2).map
        (fun r => (r.out.map (fun te => te.entry.path), r.err)) =
      some (files.map (fun n => [n]), none)) ∧
    (∀ f ∈ files, (walkRun (cycleFS files) followOptions [] 2).map
        (fun r => (r.out.map (fun te => te.entry.path)).countP
          (fun q => decide (q = [f]))) = some 1) ∧
    (∀ (fs : FS) (o : WalkOptions) (fuel : Nat) (p : Path) (d : Nat)
      (vis : List Path) (c : Nat) (e : SysError) (r : WRes),
      o.followSymlinks = true → fs.realpath p = .error e →
      abortedAt o c = false → depthExceeded o d = false →
      walkGo fs o (fuel + 1) p d vis c = some r → p ∈ r.visited) := by
  obtain ⟨out, cfin, hrec, hmap⟩ := cycle_entries files files [[]] 3 (by simp)
  have hopen : walkRun (cycleFS files) followOptions [] 2 =
      (match walkEntries (cycleFS files) followOptions
          (fun q vs cc => walkGo (cycleFS files) followOptions 1 q 1 vs cc)
          [] 0 ((files.map fileDirent) ++ [linkDirent]) [[]] 3 with
      | none => none
      | some r => some ⟨r.out, [] :: r.opened, r.visited, r.clock, r.err⟩) := by
    rfl
  have hrun : (walkRun (cycleFS files) followOptions [] 2).map
      (fun r => (r.out.map (fun te => te.entry.path), r.err)) =
      some (files.map (fun n => [n]), none) := by
    rw [hopen, hrec]
    simp [hmap]
  refine ⟨hrun, ?_, ?_⟩
  · intro f hf
    rw [hopen, hrec]
    simp only [Option.map_some', Option.some.injEq]
    try dsimp only
    rw [hmap]
    exact count_brackets_one files hnd f hf
  · intro fs o fuel p d vis c e r hfl hrp hab hde h
    have habn : ¬abortedAt o c = true := by simp [hab]
    have hden : ¬depthExceeded o d = true := by simp [hde]
    simp only [walkGo] at h
    rw [if_neg habn, if_neg hden, if_pos hfl, hrp] at h
    try dsimp only at h
    by_cases hmem : p ∈ vis
    · rw [if_pos hmem] at h
      try dsimp only at h
      simp only [Option.some.injEq] at h
      subst h
      exact hmem
    · rw [if_neg hmem] at h
      by_cases hsup : (!o.suppressErrors) = true
      · rw [if_pos hsup] at h
        try dsimp only at h
        simp only [Option.some.injEq] at h
        subst h
        exact List.mem_cons_self p vis
      · rw [if_neg hsup] at h
        try dsimp only at h
        cases hod : fs.opendir p with
        | error e2 =>
          rw [hod] at h
          try dsimp only at h
          split at h
          all_goals
            simp only [Option.some.injEq] at h
            subst h
            exact List.mem_cons_self p vis
        | ok listing =>
          rw [hod] at h
          try dsimp only at h
          cases hcall : walkEntries fs o
              (fun q vs2 cc => walkGo fs o fuel q (d + 1) vs2 cc) p d
              (match o.sort with
                | SortSpec.null => (listing, c + 1 + 1 + 1)
                | s => (sortEntries (collectEntries o listing (c + 1 + 1 + 1)).1 s,
                    (collectEntries o listing (c + 1 + 1 + 1)).2)).1
              (p :: vis)
              (match o.sort with
                | SortSpec.null => (listing, c + 1 + 1 + 1)
                | s => (sortEntries (collectEntries o listing (c + 1 + 1 + 1)).1 s,
                    (collectEntries o listing (c + 1 + 1 + 1)).2)).2 with
          | none => rw [hcall] at h; exact absurd h (by simp)
          | some rr =>
            rw [hcall] at h
            simp only [Option.some.injEq] at h
            subst h
            have hEI := walkEntries_inv fs o
              (fun q vs2 cc => walkGo fs o fuel q (d + 1) vs2 cc) p d
              (fun q vs2 cc rc hq => walkGo_inv fs o fuel q (d + 1) vs2 cc rc hq)
              _ (p :: vis) _ _ hcall
            exact hEI.vis_sub p (List.mem_cons_self p vis)

/-- Claim C4 witness: the two-file cycle yields exactly a then b. -/
theorem c4_witness :
    (walkRun (cycleFS ["a", "b"]) followOptions [] 2).map
        (fun r => (r.out.map (fun te => te.entry.path), r.err)) =
      some ([["a"], ["b"]], none) :=
  (c4_symlink_cycle ["a", "b"] (by decide) (by decide)).1

/-- Claim C5: every traversal of a filesystem with duplicate-free listings
yields its entries in strict pre-order depth-first order: no entry is
preceded by an entry of its own subtree (a directory entry precedes all of
its descendants), and the entries below any fixed path form one contiguous
block (a subtree completes before the traversal resumes elsewhere). -/
theorem c5_preorder (fs : FS) (o : WalkOptions) (root : Path) (fuel : Nat)
    (r : WRes) (hnd : FSNodup fs) (h : walkRun fs o root fuel = some r) :
    AncestorsFirst r.out ∧ SubtreeContiguous r.out :=
  ⟨(walkGo_order fs o hnd fuel root 0 [] 0 r h).2.1,
   (walkGo_order fs o hnd fuel root 0 [] 0 r h).2.2⟩

/-- Claim C5 witness: the full example-tree run is pre-order. -/
theorem c5_witness :
    AncestorsFirst
      [⟨⟨["alpha.txt"], ⟨"alpha.txt", false, false⟩, 0, none⟩, 3⟩,
       ⟨⟨["beta.txt"], ⟨"beta.txt", false, false⟩, 0, none⟩, 4⟩,
       ⟨⟨["sub", "gamma.txt"], ⟨"gamma.txt", false, false⟩, 1, none⟩, 8⟩] ∧
    SubtreeContiguous
      [⟨⟨["alpha.txt"], ⟨"alpha.txt", false, false⟩, 0, none⟩, 3⟩,
       ⟨⟨["beta.txt"], ⟨"beta.txt", false, false⟩, 0, none⟩, 4⟩,
       ⟨⟨["sub", "gamma.txt"], ⟨"gamma.txt", false, false⟩, 1, none⟩, 8⟩] :=
  c5_preorder exTreeFS defaultWalkOptions [] 4
    ⟨[⟨⟨["alpha.txt"], ⟨"alpha.txt", false, false⟩, 0, none⟩, 3⟩,
      ⟨⟨["beta.txt"], ⟨"beta.txt", false, false⟩, 0, none⟩, 4⟩,
      ⟨⟨["sub", "gamma.txt"], ⟨"gamma.txt", false, false⟩, 1, none⟩, 8⟩],
      [[], ["sub"]], [], 8, none⟩
    exTreeFS_nodup (by decide)

/-- Claim C6 counterexample: `sanitizeOptions` accepts `maxDepth = 1/2`
without raising a validation error, although 1/2 is not a non-negative
integer (its denominator is 2, not 1) and not Infinity. -/
theorem c6_counterexample :
    (sanitizeOptions { maxDepth := some (.num (.fin (mkRat 1 2))) }).isOk = true ∧
    (mkRat 1 2).den ≠ 1 := by
  exact ⟨by decide, by decide⟩

/-- Claim C6 (amended): sanitize fails with a validation error exactly when
the depth limit is not a non-negative number (integral or fractional) or
Infinity, the sort mode is not one of null/asc/desc/function, a cancellation
token is present but not an AbortSignal, a boolean option is non-boolean, or
a progress sink is present but not callable; and every missing field is
filled from the documented defaults (unbounded depth, no filters, no
directory yielding, no symlink following, suppression on, no token, no
sort, no progress sink, no stats). -/
theorem c6_amended_sanitize :
    (∀ o : WalkerOptionsIn, (sanitizeOptions o).isOk = true ↔
      (((mergeDefaults o).maxDepth = .num .inf ∨
        ∃ q : ℚ, 0 ≤ q ∧ (mergeDefaults o).maxDepth = .num (.fin q)) ∧
       ((mergeDefaults o).sort = .null ∨ (mergeDefaults o).sort = .asc ∨
        (mergeDefaults o).sort = .desc ∨ (mergeDefaults o).sort = .fn) ∧
       ((mergeDefaults o).signal = .null ∨
        (mergeDefaults o).signal = .abortSignal) ∧
       (∃ b, (mergeDefaults o).yieldDirectories = .bool b) ∧
       (∃ b, (mergeDefaults o).followSymlinks = .bool b) ∧
       (∃ b, (mergeDefaults o).suppressErrors = .bool b) ∧
       (∃ b, (mergeDefaults o).withStats = .bool b) ∧
       ((mergeDefaults o).onProgress = .null ∨
        (mergeDefaults o).onProgress = .fn))) ∧
    sanitizeOptions {} = .ok ⟨.num .inf, none, none, .bool false, .bool false,
      .bool true, .null, .null, .null, .bool false⟩ := by
  constructor
  · intro o
    have hmd : maxDepthOk (mergeDefaults o).maxDepth = true ↔
        ((mergeDefaults o).maxDepth = .num .inf ∨
          ∃ q : ℚ, 0 ≤ q ∧ (mergeDefaults o).maxDepth = .num (.fin q)) := by
      rcases (mergeDefaults o).maxDepth with n | _
      · rcases n with _ | _ | _ | q <;> simp [maxDepthOk]
      · simp [maxDepthOk]
    have hso : sortOk (mergeDefaults o).sort = true ↔
        ((mergeDefaults o).sort = .null ∨ (mergeDefaults o).sort = .asc ∨
         (mergeDefaults o).sort = .desc ∨ (mergeDefaults o).sort = .fn) := by
      rcases (mergeDefaults o).sort <;> simp [sortOk]
    have hsi : signalOk (mergeDefaults o).signal = true ↔
        ((mergeDefaults o).signal = .null ∨
         (mergeDefaults o).signal = .abortSignal) := by
      rcases (mergeDefaults o).signal <;> simp [signalOk]
    have hb : ∀ v : BoolIn, boolOk v = true ↔ (∃ b, v = .bool b) := by
      intro v
      rcases v with b | _ <;> simp [boolOk]
    have hpr : progressOk (mergeDefaults o).onProgress = true ↔
        ((mergeDefaults o).onProgress = .null ∨
         (mergeDefaults o).onProgress = .fn) := by
      rcases (mergeDefaults o).onProgress <;> simp [progressOk]
    constructor
    · intro h
      unfold sanitizeOptions at h
      cases h1 : maxDepthOk (mergeDefaults o).maxDepth with
      | false => rw [h1] at h; simp [Except.isOk, Except.toBool] at h
      | true =>
      cases h2 : sortOk (mergeDefaults o).sort with
      | false => rw [h1, h2] at h; simp [Except.isOk, Except.toBool] at h
      | true =>
      cases h3 : signalOk (mergeDefaults o).signal with
      | false => rw [h1, h2, h3] at h; simp [Except.isOk, Except.toBool] at h
      | true =>
      cases h4 : boolOk (mergeDefaults o).yieldDirectories with
      | false => rw [h1, h2, h3, h4] at h; simp [Except.isOk, Except.toBool] at h
      | true =>
      cases h5 : boolOk (mergeDefaults o).followSymlinks with
      | false => rw [h1, h2, h3, h4, h5] at h; simp [Except.isOk, Except.toBool] at h
      | true =>
      cases h6 : boolOk (mergeDefaults o).suppressErrors with
      | false => rw [h1, h2, h3, h4, h5, h6] at h; simp [Except.isOk, Except.toBool] at h
      | true =>
      cases h7 : boolOk (mergeDefaults o).withStats with
      | false => rw [h1, h2, h3, h4, h5, h6, h7] at h; simp [Except.isOk, Except.toBool] at h
      | true =>
      cases h8 : progressOk (mergeDefaults o).onProgress with
      | false => rw [h1, h2, h3, h4, h5, h6, h7, h8] at h; simp [Except.isOk, Except.toBool] at h
      | true =>
        exact ⟨hmd.mp h1, hso.mp h2, hsi.mp h3, (hb _).mp h4, (hb _).mp h5,
          (hb _).mp h6, (hb _).mp h7, hpr.mp h8⟩
    · rintro ⟨g1, g2, g3, g4, g5, g6, g7, g8⟩
      unfold sanitizeOptions
      rw [hmd.mpr g1, hso.mpr g2, hsi.mpr g3, (hb _).mpr g4, (hb _).mpr g5,
        (hb _).mpr g6, (hb _).mpr g7, hpr.mpr g8]
      rfl
  · rfl

/-- Claim C6 witness: the empty configuration sanitizes to the defaults. -/
theorem c6_witness : (sanitizeOptions {}).isOk = true := by
  rw [c6_amended_sanitize.2]
  rfl

/-- Claim C7: in any traversal whose cancellation is requested at time `t`,
at most one entry is yielded at or after the request; with N the number of
entries yielded strictly before it, fewer than N + 2 entries are produced
in total. -/
theorem c7_cancellation_bound (fs : FS) (o : WalkOptions) (root : Path)
    (fuel t : Nat) (r : WRes) (hab : o.abortAt = some t)
    (h : walkRun fs o root fuel = some r) :
    r.out.length <
      (r.out.filter (fun te => decide (te.tick < t))).length + 2 := by
  have hlate := (walkGo_inv fs o fuel root 0 [] 0 r h).late
  have hpart := length_filter_partition r.out (fun te => decide (te.tick < t))
  have hcong : (r.out.filter (fun te => !decide (te.tick < t))) =
      (r.out.filter (fun te => abortedAt o te.tick)) := by
    apply List.filter_congr
    intro te _
    simp only [abortedAt, hab]
    by_cases hx : te.tick < t
    · simp [hx]
      try omega
    · simp [hx]
      try omega
  rw [hcong] at hpart
  omega

/-- Claim C7 witness: the example tree cancelled at time 3 yields exactly
one entry, in bound. -/
theorem c7_witness :
    ([⟨⟨["alpha.txt"], ⟨"alpha.txt", false, false⟩, 0, none⟩, 3⟩] :
        List TimedEntry).length <
      (([⟨⟨["alpha.txt"], ⟨"alpha.txt", false, false⟩, 0, none⟩, 3⟩] :
        List TimedEntry).filter (fun te => decide (te.tick < 3))).length + 2 :=
  c7_cancellation_bound exTreeFS { defaultWalkOptions with abortAt := some 3 }
    [] 10 3
    ⟨[⟨⟨["alpha.txt"], ⟨"alpha.txt", false, false⟩, 0, none⟩, 3⟩],
      [[]], [], 4, none⟩
    rfl (by decide)

/-- Claim C9: include and exclude rules are matched against the basename
only and control only whether an entry is yielded, never what is traversed:
a run with rules installed (and no stats or cancellation in play) opens
exactly the same directories, builds the same visited set, ends with the
same error status as the rule-free run, and yields exactly those entries of
the rule-free run whose own basename passes the filters -- so an excluded
directory is still recursed into and its passing descendants still
appear. -/
theorem c9_filters_yield_only (fs : FS) (o : WalkOptions) (root : Path)
    (fuel : Nat) (r r' : WRes) (h1 : o.abortAt = none)
    (h2 : o.withStats = false) (h : walkRun fs o root fuel = some r)
    (h' : walkRun fs (stripFilters o) root fuel = some r') :
    r.opened = r'.opened ∧ r.visited = r'.visited ∧ r.err = r'.err ∧
    r.out = r'.out.filter (fun te => applyFilters te.entry.dirent.name o) := by
  have hrel := walkGo_filterRel fs o h1 h2 fuel root 0 [] 0
  unfold walkRun at h h'
  rw [h, h'] at hrel
  obtain ⟨ho, hop, hvis, hck, herr⟩ := hrel
  exact ⟨hop, hvis, herr, ho⟩

/-- Claim C9 witness: filtering the example tree by the substring `alpha`
yields only alpha.txt, while the same directories (root and `sub`) are
opened as in the unfiltered run. -/
theorem c9_witness :
    ([[], ["sub"]] : List Path) = [[], ["sub"]] ∧ ([] : List Path) = [] ∧
    (none : Option SysError) = none ∧
    ([⟨⟨["alpha.txt"], ⟨"alpha.txt", false, false⟩, 0, none⟩, 3⟩] :
        List TimedEntry) =
      ([⟨⟨["alpha.txt"], ⟨"alpha.txt", false, false⟩, 0, none⟩, 3⟩,
        ⟨⟨["beta.txt"], ⟨"beta.txt", false, false⟩, 0, none⟩, 4⟩,
        ⟨⟨["sub", "gamma.txt"], ⟨"gamma.txt", false, false⟩, 1, none⟩, 8⟩] :
          List TimedEntry).filter
        (fun te => applyFilters te.entry.dirent.name
          { defaultWalkOptions with includeRule := some (.str "alpha") }) :=
  c9_filters_yield_only exTreeFS
    { defaultWalkOptions with includeRule := some (.str "alpha") } [] 4
    ⟨[⟨⟨["alpha.txt"], ⟨"alpha.txt", false, false⟩, 0, none⟩, 3⟩],
      [[], ["sub"]], [], 8, none⟩
    ⟨[⟨⟨["alpha.txt"], ⟨"alpha.txt", false, false⟩, 0, none⟩, 3⟩,
      ⟨⟨["beta.txt"], ⟨"beta.txt", false, false⟩, 0, none⟩, 4⟩,
      ⟨⟨["sub", "gamma.txt"], ⟨"gamma.txt", false, false⟩, 1, none⟩, 8⟩],
      [[], ["sub"]], [], 8, none⟩
    rfl rfl (by decide) (by decide)

end FsWalk
